import Mathlib

/-!
Shallow embedding of the github-team-metrics reconciliation and scoring
pipeline (src/data_processor.py, src/performance_ranker.py,
src/github_fetcher.py), together with proofs of the specified properties.

Python conventions used by the embedding:
* Python floats and ints are modelled as rationals (ℚ).
* `round(x, n)` is Python's round-half-to-even, modelled by `pyRound`/`roundTo`.
* Python dicts are modelled as association lists with first-occurrence key
  positions and last-write-wins values (`dget` / `dinsert`), which matches
  the insertion-ordered semantics of CPython dicts.
* Record values (the per-engineer metric dictionaries) are modelled by the
  `Val` type: numbers, strings, lists of strings and nested dicts.
-/

/-- Python `round` to an integer: round half to even. -/
def pyRound (q : ℚ) : ℤ :=
  let f := ⌊q⌋
  let d := q - (f : ℚ)
  if d < 1/2 then f
  else if 1/2 < d then f + 1
  else if 2 ∣ f then f else f + 1

/-- Python `round(q, n)`: round to `n` decimal digits, half to even. -/
def roundTo (n : ℕ) (q : ℚ) : ℚ := (pyRound (q * 10 ^ n) : ℚ) / 10 ^ n

theorem pyRound_nonneg {q : ℚ} (h : 0 ≤ q) : 0 ≤ pyRound q := by
  unfold pyRound
  have hf : (0 : ℤ) ≤ ⌊q⌋ := Int.floor_nonneg.mpr h
  dsimp only
  split
  · exact hf
  · split
    · omega
    · split <;> omega

theorem pyRound_le {q : ℚ} {B : ℤ} (h : q ≤ (B : ℚ)) : pyRound q ≤ B := by
  unfold pyRound
  have hf : ⌊q⌋ ≤ B := Int.floor_le_floor h |>.trans_eq (Int.floor_intCast B)
  dsimp only
  by_cases hq : q = (B : ℚ)
  · subst hq
    simp [Int.floor_intCast]
  · have hlt : q < (B : ℚ) := lt_of_le_of_ne h hq
    have hfl : ⌊q⌋ < B := by
      rw [Int.floor_lt]
      exact hlt
    split
    · exact hf
    · split
      · omega
      · split <;> omega

theorem roundTo_nonneg {n : ℕ} {q : ℚ} (h : 0 ≤ q) : 0 ≤ roundTo n q := by
  unfold roundTo
  have : (0 : ℚ) ≤ (pyRound (q * 10 ^ n) : ℚ) := by
    exact_mod_cast pyRound_nonneg (by positivity)
  positivity

theorem roundTo_le {n : ℕ} {q B : ℚ} (hB : B = ((100 : ℤ) : ℚ)) (h : q ≤ B) :
    roundTo n q ≤ B := by
  subst hB
  unfold roundTo
  have h10 : (0 : ℚ) < 10 ^ n := by positivity
  have hmul : q * 10 ^ n ≤ ((100 * 10 ^ n : ℤ) : ℚ) := by
    push_cast
    exact mul_le_mul_of_nonneg_right h (le_of_lt h10)
  have hcast : (pyRound (q * 10 ^ n) : ℚ) ≤ ((100 * 10 ^ n : ℤ) : ℚ) := by
    exact_mod_cast pyRound_le hmul
  rw [div_le_iff₀ h10]
  push_cast at hcast ⊢
  linarith

/-- Python `min` over a nonempty list (`0` for the empty list, matching the
`min(values) if values else 0` idiom in the source). -/
def pymin (xs : List ℚ) : ℚ :=
  match xs with
  | [] => 0
  | h :: t => t.foldl min h

/-- Python `max` over a nonempty list (`0` for the empty list). -/
def pymax (xs : List ℚ) : ℚ :=
  match xs with
  | [] => 0
  | h :: t => t.foldl max h

theorem foldl_min_le {t : List ℚ} {h : ℚ} : ∀ x ∈ h :: t, t.foldl min h ≤ x := by
  induction t generalizing h with
  | nil =>
    intro x hx
    rw [List.mem_singleton] at hx
    simp [hx]
  | cons a t ih =>
    intro x hx
    simp only [List.foldl_cons]
    have hbase : t.foldl min (min h a) ≤ min h a := ih (min h a) (List.mem_cons_self _ _)
    rcases List.mem_cons.mp hx with rfl | hx
    · exact hbase.trans (min_le_left _ _)
    · rcases List.mem_cons.mp hx with rfl | hx
      · exact hbase.trans (min_le_right _ _)
      · exact ih x (List.mem_cons_of_mem _ hx)

theorem foldl_min_mem {t : List ℚ} {h : ℚ} : t.foldl min h ∈ h :: t := by
  induction t generalizing h with
  | nil => simp
  | cons a t ih =>
    simp only [List.foldl_cons]
    have hmem := @ih (min h a)
    rcases List.mem_cons.mp hmem with hm | hm
    · rcases min_choice h a with hc | hc
      · exact List.mem_cons.mpr (Or.inl (hm.trans hc))
      · exact List.mem_cons.mpr (Or.inr (List.mem_cons.mpr (Or.inl (hm.trans hc))))
    · exact List.mem_cons.mpr (Or.inr (List.mem_cons.mpr (Or.inr hm)))

theorem pymin_le {xs : List ℚ} (hne : xs ≠ []) : ∀ x ∈ xs, pymin xs ≤ x := by
  cases xs with
  | nil => simp at hne
  | cons h t => intro x hx; exact foldl_min_le x hx

theorem pymin_mem {xs : List ℚ} (hne : xs ≠ []) : pymin xs ∈ xs := by
  cases xs with
  | nil => simp at hne
  | cons h t => exact foldl_min_mem

theorem foldl_max_le {t : List ℚ} {h : ℚ} : ∀ x ∈ h :: t, x ≤ t.foldl max h := by
  induction t generalizing h with
  | nil =>
    intro x hx
    rw [List.mem_singleton] at hx
    simp [hx]
  | cons a t ih =>
    intro x hx
    simp only [List.foldl_cons]
    have hbase : max h a ≤ t.foldl max (max h a) := ih (max h a) (List.mem_cons_self _ _)
    rcases List.mem_cons.mp hx with rfl | hx
    · exact (le_max_left _ _).trans hbase
    · rcases List.mem_cons.mp hx with rfl | hx
      · exact (le_max_right _ _).trans hbase
      · exact ih x (List.mem_cons_of_mem _ hx)

theorem foldl_max_mem {t : List ℚ} {h : ℚ} : t.foldl max h ∈ h :: t := by
  induction t generalizing h with
  | nil => simp
  | cons a t ih =>
    simp only [List.foldl_cons]
    have hmem := @ih (max h a)
    rcases List.mem_cons.mp hmem with hm | hm
    · rcases max_choice h a with hc | hc
      · exact List.mem_cons.mpr (Or.inl (hm.trans hc))
      · exact List.mem_cons.mpr (Or.inr (List.mem_cons.mpr (Or.inl (hm.trans hc))))
    · exact List.mem_cons.mpr (Or.inr (List.mem_cons.mpr (Or.inr hm)))

theorem pymax_ge {xs : List ℚ} (hne : xs ≠ []) : ∀ x ∈ xs, x ≤ pymax xs := by
  cases xs with
  | nil => simp at hne
  | cons h t => intro x hx; exact foldl_max_le x hx

theorem pymax_mem {xs : List ℚ} (hne : xs ≠ []) : pymax xs ∈ xs := by
  cases xs with
  | nil => simp at hne
  | cons h t => exact foldl_max_mem

theorem pymin_perm {xs ys : List ℚ} (hp : xs.Perm ys) : pymin xs = pymin ys := by
  rcases eq_or_ne xs [] with h | h
  · subst h
    rw [hp.symm.eq_nil]
  · have hy : ys ≠ [] := by
      intro hy; subst hy; exact h hp.eq_nil
    have h1 : pymin xs ≤ pymin ys :=
      pymin_le h _ (hp.mem_iff.mpr (pymin_mem hy))
    have h2 : pymin ys ≤ pymin xs :=
      pymin_le hy _ (hp.mem_iff.mp (pymin_mem h))
    exact le_antisymm h1 h2

theorem pymax_perm {xs ys : List ℚ} (hp : xs.Perm ys) : pymax xs = pymax ys := by
  rcases eq_or_ne xs [] with h | h
  · subst h
    rw [hp.symm.eq_nil]
  · have hy : ys ≠ [] := by
      intro hy; subst hy; exact h hp.eq_nil
    have h1 : pymax xs ≤ pymax ys :=
      pymax_ge hy _ (hp.mem_iff.mp (pymax_mem h))
    have h2 : pymax ys ≤ pymax xs :=
      pymax_ge h _ (hp.mem_iff.mpr (pymax_mem hy))
    exact le_antisymm h1 h2

/-- Insert-or-overwrite into an association list, keeping the position of an
existing key (CPython dict assignment semantics). -/
def dinsert {α : Type} : List (String × α) → String → α → List (String × α)
  | [], k, v => [(k, v)]
  | p :: ps, k, v => if p.1 = k then (k, v) :: ps else p :: dinsert ps k v

/-- Association-list lookup (first occurrence), modelling Python dict access. -/
def dget {α : Type} : List (String × α) → String → Option α
  | [], _ => none
  | p :: ps, k => if p.1 = k then some p.2 else dget ps k

theorem dget_dinsert_self {α : Type} (d : List (String × α)) (k : String) (v : α) :
    dget (dinsert d k v) k = some v := by
  induction d with
  | nil => simp [dinsert, dget]
  | cons p ps ih =>
    by_cases h : p.1 = k
    · simp [dinsert, dget, h]
    · simp [dinsert, dget, h, ih]

theorem dget_dinsert_ne {α : Type} (d : List (String × α)) (k k' : String) (v : α)
    (hne : k' ≠ k) : dget (dinsert d k v) k' = dget d k' := by
  induction d with
  | nil => simp [dinsert, dget, Ne.symm hne]
  | cons p ps ih =>
    obtain ⟨pk, pv⟩ := p
    by_cases h : pk = k
    · subst h
      simp [dinsert, dget, Ne.symm hne]
    · simp [dinsert, dget, h, ih]

theorem keys_dinsert {α : Type} (d : List (String × α)) (k : String) (v : α) :
    (dinsert d k v).map Prod.fst =
      if k ∈ d.map Prod.fst then d.map Prod.fst else d.map Prod.fst ++ [k] := by
  induction d with
  | nil => simp [dinsert]
  | cons p ps ih =>
    by_cases h : p.1 = k
    · simp [dinsert, h]
    · simp only [dinsert, if_neg h, List.map_cons, ih]
      by_cases hm : k ∈ ps.map Prod.fst
      · simp [hm, Ne.symm h]
      · simp [hm, Ne.symm h]

theorem nodupKeys_dinsert {α : Type} (d : List (String × α)) (k : String) (v : α)
    (h : (d.map Prod.fst).Nodup) : ((dinsert d k v).map Prod.fst).Nodup := by
  rw [keys_dinsert]
  by_cases hm : k ∈ d.map Prod.fst
  · simpa [hm]
  · simp only [hm, if_false]
    have hcons : (k :: d.map Prod.fst).Nodup := List.nodup_cons.mpr ⟨hm, h⟩
    exact (List.perm_append_singleton k (d.map Prod.fst)).nodup_iff.mpr hcons

theorem mem_dinsert {α : Type} {d : List (String × α)} {k : String} {v : α}
    {p : String × α} (hp : p ∈ dinsert d k v) : p ∈ d ∨ p = (k, v) := by
  induction d with
  | nil => simp [dinsert] at hp; simp [hp]
  | cons q qs ih =>
    by_cases h : q.1 = k
    · simp [dinsert, h] at hp
      rcases hp with hp | hp
      · right; simp [hp]
      · left; simp [hp]
    · simp [dinsert, h] at hp
      rcases hp with hp | hp
      · left; simp [hp]
      · rcases ih hp with h1 | h1
        · left; simp [h1]
        · right; exact h1

/-- A Python value stored in a per-engineer record: a number (Python
int/float, modelled as ℚ), a string, a list of strings, or a nested dict. -/
inductive Val : Type where
  | num : ℚ → Val
  | str : String → Val
  | strList : List String → Val
  | dict : List (String × Val) → Val

/-- A per-engineer record: a Python dict keyed by strings. -/
abbrev PyDict := List (String × Val)

/-- `d.get(k, 0)` read of a numeric field (non-numeric values would raise in
Python; they are mapped to the default here). -/
def getNum (r : PyDict) (k : String) : ℚ :=
  match dget r k with
  | some (Val.num q) => q
  | _ => 0

/-- Read of a string field, with `""` for a missing key. -/
def getStr (r : PyDict) (k : String) : String :=
  match dget r k with
  | some (Val.str s) => s
  | _ => ""

/-- `d.get(k, {})` read of a nested-dict field. -/
def getDict (r : PyDict) (k : String) : PyDict :=
  match dget r k with
  | some (Val.dict d) => d
  | _ => []

/-- `eng['github_username']`. -/
def uname (r : PyDict) : String := getStr r "github_username"

/-- `PerformanceRanker.normalize_to_100` (performance_ranker.py:20-36):
returns 50.0 when `max_val == min_val`, else min-max scales to 0-100 and
rounds to 2 decimals. -/
def normalize_to_100 (v mn mx : ℚ) : ℚ :=
  if mx = mn then 50 else roundTo 2 ((v - mn) / (mx - mn) * 100)

/-- The `complexity_scores` dict comprehension in
`calculate_complexity_component` (performance_ranker.py:52-55): maps each
username to `eng.get('total_complexity_score', 0)`, later duplicates of a
username overwriting earlier ones. -/
def complexityDict (l : List PyDict) : List (String × ℚ) :=
  l.foldl (fun d r => dinsert d (uname r) (getNum r "total_complexity_score")) []

/-- `PerformanceRanker.calculate_complexity_component`
(performance_ranker.py:38-75). -/
def calculate_complexity_component (l : List PyDict) : List (String × ℚ) :=
  let cs := complexityDict l
  let values := cs.map Prod.snd
  let mn := pymin values
  let mx := pymax values
  cs.foldl (fun d p => dinsert d p.1 (normalize_to_100 p.2 mn mx)) []

/-- The per-engineer body of `calculate_other_component`
(performance_ranker.py:109-155): five candidate components, mean over the
strictly positive ones, rounded to 2 decimals. -/
def otherScoreOf (mnF mxF mnR mxR : ℚ) (r : PyDict) : ℚ :=
  let ai := getDict r "ai_analysis"
  let cq := getDict ai "code_quality"
  let rq := getDict ai "review_quality"
  let code_score := getNum cq "quality_score" * 10
  let review_score := (getNum rq "thoroughness_score" + getNum rq "helpfulness_score") / 2 * 10
  let commit_freq_norm := normalize_to_100 (getNum r "commit_frequency") mnF mxF
  let pr_merge_rate := getNum r "pr_merge_rate"
  let review_participation_norm := normalize_to_100 (getNum r "review_participation") mnR mxR
  let components := [code_score, review_score, commit_freq_norm, pr_merge_rate,
    review_participation_norm]
  let non_zero_components := components.filter (fun c => decide (0 < c))
  roundTo 2
    (if non_zero_components.isEmpty then 0
     else non_zero_components.sum / non_zero_components.length)

/-- `PerformanceRanker.calculate_other_component` (performance_ranker.py:77-159). -/
def calculate_other_component (l : List PyDict) : List (String × ℚ) :=
  let commit_frequencies := l.map (fun r => getNum r "commit_frequency")
  let review_participations := l.map (fun r => getNum r "review_participation")
  let mnF := pymin commit_frequencies
  let mxF := pymax commit_frequencies
  let mnR := pymin review_participations
  let mxR := pymax review_participations
  l.foldl (fun d r => dinsert d (uname r) (otherScoreOf mnF mxF mnR mxR r)) []

/-- `PerformanceRanker.calculate_composite_scores` (performance_ranker.py:161-205):
per username, the triple (complexity_component, other_component,
composite_score) with composite = 0.5 * complexity + 0.5 * other, rounded
to 2 decimals. -/
def calculate_composite_scores (l : List PyDict) : List (String × (ℚ × ℚ × ℚ)) :=
  let comp := calculate_complexity_component l
  let oth := calculate_other_component l
  comp.foldl (fun d p =>
    let o := (dget oth p.1).getD 0
    dinsert d p.1 (p.2, o, roundTo 2 (p.2 * (1/2) + o * (1/2)))) []

/-- Writes the three score fields of one record from the per-username score
table (performance_ranker.py:233-243). -/
def addScores (cs : List (String × (ℚ × ℚ × ℚ))) (r : PyDict) : PyDict :=
  dinsert (dinsert (dinsert r "complexity_component"
    (Val.num ((dget cs (uname r)).getD (0, 0, 0)).1))
    "other_component" (Val.num ((dget cs (uname r)).getD (0, 0, 0)).2.1))
    "composite_score" (Val.num ((dget cs (uname r)).getD (0, 0, 0)).2.2)

/-- The score-copying loop of `rank_engineers` (performance_ranker.py:232-243):
each record receives the three score fields looked up by its username. -/
def scoreStep (l : List PyDict) : List PyDict :=
  l.map (addScores (calculate_composite_scores l))

/-- Stable descending insertion used to model Python's stable
`sorted(..., key=..., reverse=True)`: a new element goes after all elements
with a key ≥ its own. -/
def insertDesc {α : Type} (key : α → ℚ) (x : α) : List α → List α
  | [] => [x]
  | y :: ys => if key x ≤ key y then y :: insertDesc key x ys else x :: y :: ys

/-- Python's `sorted(l, key=key, reverse=True)`: the unique stable
descending sort by `key`. -/
def pysortDesc {α : Type} (key : α → ℚ) (l : List α) : List α :=
  l.foldl (fun acc x => insertDesc key x acc) []

/-- `PerformanceRanker._get_rank_label` (performance_ranker.py:268-286). -/
def rankLabel (rank total : ℕ) : String :=
  if rank = 1 then "🥇 Top Performer"
  else if (rank : ℚ) / (total : ℚ) ≤ 1/10 then "⭐ High Performer"
  else if (rank : ℚ) / (total : ℚ) ≤ 1/2 then "✓ Above Average"
  else "→ Developing"

/-- The rank/percentile/label assignment of `rank_engineers`
(performance_ranker.py:255-258) for 1-based rank `i` out of `total`. -/
def addRankFields (i total : ℕ) (r : PyDict) : PyDict :=
  dinsert (dinsert (dinsert r "rank" (Val.num (i : ℚ)))
    "percentile" (Val.num (roundTo 1 ((1 - ((i : ℚ) - 1) / (total : ℚ)) * 100))))
    "rank_label" (Val.str (rankLabel i total))

/-- `PerformanceRanker.rank_engineers` (performance_ranker.py:207-266). -/
def rank_engineers (l : List PyDict) : List PyDict :=
  if l.isEmpty then []
  else
    let ws := scoreStep l
    let sorted := pysortDesc (fun r => getNum r "composite_score") ws
    let total := sorted.length
    sorted.enum.map (fun p => addRankFields (p.1 + 1) total p.2)

theorem mem_foldl_dinsert {α β : Type} (key : β → String) (val : β → α) :
    ∀ (l : List β) (d : List (String × α)) (p : String × α),
      p ∈ l.foldl (fun d r => dinsert d (key r) (val r)) d →
      p ∈ d ∨ ∃ r ∈ l, p = (key r, val r) := by
  intro l
  induction l with
  | nil => intro d p hp; exact Or.inl hp
  | cons x xs ih =>
    intro d p hp
    simp only [List.foldl_cons] at hp
    rcases ih (dinsert d (key x) (val x)) p hp with h1 | h1
    · rcases mem_dinsert h1 with h2 | h2
      · exact Or.inl h2
      · exact Or.inr ⟨x, List.mem_cons_self _ _, h2⟩
    · rcases h1 with ⟨r, hr, hpr⟩
      exact Or.inr ⟨r, List.mem_cons_of_mem _ hr, hpr⟩

theorem mem_foldl_dinsert_pairs {α : Type} :
    ∀ (l : List (String × α)) (f : String × α → α) (d : List (String × α))
      (p : String × α),
      p ∈ l.foldl (fun d q => dinsert d q.1 (f q)) d →
      p ∈ d ∨ ∃ q ∈ l, p = (q.1, f q) := by
  intro l f
  induction l with
  | nil => intro d p hp; exact Or.inl hp
  | cons x xs ih =>
    intro d p hp
    simp only [List.foldl_cons] at hp
    rcases ih (dinsert d x.1 (f x)) p hp with h1 | h1
    · rcases mem_dinsert h1 with h2 | h2
      · exact Or.inl h2
      · exact Or.inr ⟨x, List.mem_cons_self _ _, h2⟩
    · rcases h1 with ⟨q, hq, hpq⟩
      exact Or.inr ⟨q, List.mem_cons_of_mem _ hq, hpq⟩

theorem pymin_all_eq {xs : List ℚ} {c : ℚ} (h : ∀ x ∈ xs, x = c) (hne : xs ≠ []) :
    pymin xs = c :=
  h _ (pymin_mem hne)

theorem pymax_all_eq {xs : List ℚ} {c : ℚ} (h : ∀ x ∈ xs, x = c) (hne : xs ≠ []) :
    pymax xs = c :=
  h _ (pymax_mem hne)

theorem normalize_to_100_bounds {v mn mx : ℚ} (hlt : mn < mx) (h1 : mn ≤ v)
    (h2 : v ≤ mx) : 0 ≤ normalize_to_100 v mn mx ∧ normalize_to_100 v mn mx ≤ 100 := by
  unfold normalize_to_100
  rw [if_neg (ne_of_gt hlt)]
  have hd : (0 : ℚ) < mx - mn := by linarith
  have hq0 : 0 ≤ (v - mn) / (mx - mn) * 100 :=
    mul_nonneg (div_nonneg (by linarith) (le_of_lt hd)) (by norm_num)
  have hq1 : (v - mn) / (mx - mn) * 100 ≤ 100 := by
    have : (v - mn) / (mx - mn) ≤ 1 := by
      rw [div_le_one hd]
      linarith
    linarith
  refine ⟨roundTo_nonneg hq0, ?_⟩
  exact roundTo_le (by norm_num) hq1

/-- C7. `normalize_to_100` returns 50 whenever max == min (no division is
performed on that branch); consequently a cohort in which every record
carries the same `total_complexity_score` gets complexity component 50.0
for every username; and for min < max and min ≤ value ≤ max the result is
within [0, 100]. -/
theorem claim_C7_normalize_minmax :
    (∀ v m : ℚ, normalize_to_100 v m m = 50) ∧
    (∀ (l : List PyDict) (c : ℚ),
      (∀ r ∈ l, getNum r "total_complexity_score" = c) →
      ∀ p ∈ calculate_complexity_component l, p.2 = 50) ∧
    (∀ v mn mx : ℚ, mn < mx → mn ≤ v → v ≤ mx →
      0 ≤ normalize_to_100 v mn mx ∧ normalize_to_100 v mn mx ≤ 100) := by
  refine ⟨?_, ?_, ?_⟩
  · intro v m
    simp [normalize_to_100]
  · intro l c hall p hp
    unfold calculate_complexity_component at hp
    rcases mem_foldl_dinsert_pairs _ _ _ _ hp with h | ⟨q, hq, hpq⟩
    · simp at h
    · have hq2 : q.2 = c := by
        unfold complexityDict at hq
        rcases mem_foldl_dinsert (fun r => uname r)
          (fun r => getNum r "total_complexity_score") l [] q hq with h | ⟨r, hr, hqr⟩
        · simp at h
        · rw [hqr]
          exact hall r hr
      have hvals : ∀ x ∈ (complexityDict l).map Prod.snd, x = c := by
        intro x hx
        rcases List.mem_map.mp hx with ⟨q', hq', hxq⟩
        unfold complexityDict at hq'
        rcases mem_foldl_dinsert (fun r => uname r)
          (fun r => getNum r "total_complexity_score") l [] q' hq' with h | ⟨r, hr, hqr⟩
        · simp at h
        · rw [← hxq, hqr]
          exact hall r hr
      have hne : (complexityDict l).map Prod.snd ≠ [] := by
        intro hnil
        have : q.2 ∈ (complexityDict l).map Prod.snd := List.mem_map_of_mem _ hq
        rw [hnil] at this
        exact absurd this (List.not_mem_nil _)
      rw [hpq]
      simp only
      rw [pymin_all_eq hvals hne, pymax_all_eq hvals hne, normalize_to_100]
      simp
  · intro v mn mx hlt h1 h2
    exact normalize_to_100_bounds hlt h1 h2

/-- Witness for C7 at a concrete instance. -/
theorem claim_C7_normalize_minmax_witness :
    ((0 : ℚ) < 2 ∧ (0 : ℚ) ≤ 1 ∧ (1 : ℚ) ≤ 2) ∧
    (0 ≤ normalize_to_100 1 0 2 ∧ normalize_to_100 1 0 2 ≤ 100) :=
  ⟨by norm_num,
   claim_C7_normalize_minmax.2.2 1 0 2 (by norm_num) (by norm_num) (by norm_num)⟩

/-- The last element of `l` whose key is `u` (Python dict writes in a loop:
the final value for a key comes from the last record carrying it). -/
def lastKeyed {β : Type} (key : β → String) (u : String) : List β → Option β
  | [] => none
  | r :: rs =>
    match lastKeyed key u rs with
    | some y => some y
    | none => if key r = u then some r else none

theorem dget_foldl_dinsert {α β : Type} (key : β → String) (val : β → α) :
    ∀ (l : List β) (d : List (String × α)) (u : String),
      dget (l.foldl (fun d r => dinsert d (key r) (val r)) d) u =
        match lastKeyed key u l with
        | some r => some (val r)
        | none => dget d u := by
  intro l
  induction l with
  | nil => intro d u; rfl
  | cons x xs ih =>
    intro d u
    simp only [List.foldl_cons, lastKeyed]
    rw [ih]
    cases hx : lastKeyed key u xs with
    | some y => rfl
    | none =>
      simp only
      by_cases hk : key x = u
      · rw [if_pos hk, ← hk, dget_dinsert_self]
      · rw [if_neg hk, dget_dinsert_ne]
        exact fun hc => hk hc.symm

/-- The "other metrics" score exactly as the specification words it: the five
candidate components (code-quality ×10, mean of the two review sub-scores
×10, min-max-normalized commit frequency, PR merge rate as-is, min-max
normalized review participation), then the arithmetic mean of the strictly
positive ones rounded to 2 decimals, and 0 when no component is positive. -/
def specOtherScore (l : List PyDict) (r : PyDict) : ℚ :=
  let mnF := pymin (l.map (fun e => getNum e "commit_frequency"))
  let mxF := pymax (l.map (fun e => getNum e "commit_frequency"))
  let mnR := pymin (l.map (fun e => getNum e "review_participation"))
  let mxR := pymax (l.map (fun e => getNum e "review_participation"))
  let comps := [getNum (getDict (getDict r "ai_analysis") "code_quality") "quality_score" * 10,
    (getNum (getDict (getDict r "ai_analysis") "review_quality") "thoroughness_score" +
      getNum (getDict (getDict r "ai_analysis") "review_quality") "helpfulness_score") / 2 * 10,
    normalize_to_100 (getNum r "commit_frequency") mnF mxF,
    getNum r "pr_merge_rate",
    normalize_to_100 (getNum r "review_participation") mnR mxR]
  let pos := comps.filter (fun c => decide (0 < c))
  if pos.isEmpty then 0 else roundTo 2 (pos.sum / pos.length)

theorem roundTo_zero (n : ℕ) : roundTo n 0 = 0 := by
  unfold roundTo pyRound
  norm_num

/-- C6. For every engineer list, the per-username value produced by
`calculate_other_component` is exactly the spec-side score of the record
that effectively carries that username (the last one, for duplicate
usernames): the mean of the strictly positive candidate components rounded
to 2 decimals, 0 when none is positive. -/
theorem claim_C6_other_component :
    ∀ (l : List PyDict) (u : String) (r : PyDict),
      lastKeyed uname u l = some r →
      dget (calculate_other_component l) u = some (specOtherScore l r) := by
  intro l u r hlast
  unfold calculate_other_component
  rw [dget_foldl_dinsert uname _ l [] u, hlast]
  simp only [Option.some.injEq]
  unfold otherScoreOf specOtherScore
  simp only
  by_cases he :
    ([getNum (getDict (getDict r "ai_analysis") "code_quality") "quality_score" * 10,
      (getNum (getDict (getDict r "ai_analysis") "review_quality") "thoroughness_score" +
        getNum (getDict (getDict r "ai_analysis") "review_quality") "helpfulness_score") / 2 * 10,
      normalize_to_100 (getNum r "commit_frequency")
        (pymin (l.map (fun e => getNum e "commit_frequency")))
        (pymax (l.map (fun e => getNum e "commit_frequency"))),
      getNum r "pr_merge_rate",
      normalize_to_100 (getNum r "review_participation")
        (pymin (l.map (fun e => getNum e "review_participation")))
        (pymax (l.map (fun e => getNum e "review_participation")))].filter
        (fun c => decide (0 < c))).isEmpty
  · rw [if_pos he, if_pos he, roundTo_zero]
  · rw [if_neg he, if_neg he]

/-- Witness for C6 at a concrete engineer list. -/
theorem claim_C6_other_component_witness :
    lastKeyed uname "a"
        [[("github_username", Val.str "a"), ("commit_frequency", Val.num 2),
          ("pr_merge_rate", Val.num 80)]] =
      some [("github_username", Val.str "a"), ("commit_frequency", Val.num 2),
          ("pr_merge_rate", Val.num 80)] ∧
    dget (calculate_other_component
        [[("github_username", Val.str "a"), ("commit_frequency", Val.num 2),
          ("pr_merge_rate", Val.num 80)]]) "a" =
      some (specOtherScore
        [[("github_username", Val.str "a"), ("commit_frequency", Val.num 2),
          ("pr_merge_rate", Val.num 80)]]
        [("github_username", Val.str "a"), ("commit_frequency", Val.num 2),
          ("pr_merge_rate", Val.num 80)]) :=
  ⟨rfl, claim_C6_other_component _ "a" _ rfl⟩

theorem insertDesc_perm {α : Type} (key : α → ℚ) (x : α) (l : List α) :
    (insertDesc key x l).Perm (x :: l) := by
  induction l with
  | nil => exact List.Perm.refl _
  | cons y ys ih =>
    unfold insertDesc
    by_cases h : key x ≤ key y
    · rw [if_pos h]
      exact (ih.cons y).trans (List.Perm.swap x y ys)
    · rw [if_neg h]

theorem insertDesc_sorted {α : Type} (key : α → ℚ) (x : α) {l : List α}
    (hs : l.Pairwise (fun a b => key b ≤ key a)) :
    (insertDesc key x l).Pairwise (fun a b => key b ≤ key a) := by
  induction l with
  | nil => simp [insertDesc]
  | cons y ys ih =>
    rcases List.pairwise_cons.mp hs with ⟨hs1, hs2⟩
    unfold insertDesc
    by_cases h : key x ≤ key y
    · rw [if_pos h]
      refine List.pairwise_cons.mpr ⟨?_, ih hs2⟩
      intro z hz
      have hz2 : z ∈ x :: ys := (insertDesc_perm key x ys).mem_iff.mp hz
      rcases List.mem_cons.mp hz2 with rfl | hz3
      · exact h
      · exact hs1 z hz3
    · rw [if_neg h]
      have hyx : key y ≤ key x := le_of_not_le h
      refine List.pairwise_cons.mpr ⟨?_, hs⟩
      intro z hz
      rcases List.mem_cons.mp hz with rfl | hz2
      · exact hyx
      · exact (hs1 z hz2).trans hyx

theorem insertDesc_filter {α : Type} (key : α → ℚ) (x : α) (s : ℚ) {l : List α}
    (hs : l.Pairwise (fun a b => key b ≤ key a)) :
    (insertDesc key x l).filter (fun y => decide (key y = s)) =
      if key x = s then (l.filter (fun y => decide (key y = s))) ++ [x]
      else l.filter (fun y => decide (key y = s)) := by
  induction l with
  | nil =>
    by_cases h : key x = s <;> simp [insertDesc, List.filter, h]
  | cons y ys ih =>
    rcases List.pairwise_cons.mp hs with ⟨hs1, hs2⟩
    unfold insertDesc
    by_cases h : key x ≤ key y
    · rw [if_pos h]
      rw [List.filter_cons, List.filter_cons, ih hs2]
      by_cases hx : key x = s <;> by_cases hy : key y = s <;> simp [hx, hy]
    · rw [if_neg h]
      have hlt : key y < key x := lt_of_not_le h
      rw [List.filter_cons]
      by_cases hx : key x = s
      · have hnil : (y :: ys).filter (fun z => decide (key z = s)) = [] := by
          rw [List.filter_eq_nil_iff]
          intro z hz
          simp only [decide_eq_true_eq]
          rcases List.mem_cons.mp hz with rfl | hz2
          · exact fun hc => absurd (hc.trans hx.symm) (ne_of_lt hlt)
          · have hzy : key z ≤ key y := hs1 z hz2
            exact fun hc => absurd (hc.trans hx.symm)
              (ne_of_lt (lt_of_le_of_lt hzy hlt))
        simp [hx, hnil]
      · simp [hx]

theorem foldl_insertDesc_props {α : Type} (key : α → ℚ) (s : ℚ) :
    ∀ (l acc : List α), acc.Pairwise (fun a b => key b ≤ key a) →
      (l.foldl (fun a x => insertDesc key x a) acc).Pairwise (fun a b => key b ≤ key a) ∧
      (l.foldl (fun a x => insertDesc key x a) acc).Perm (acc ++ l) ∧
      (l.foldl (fun a x => insertDesc key x a) acc).filter (fun y => decide (key y = s)) =
        acc.filter (fun y => decide (key y = s)) ++ l.filter (fun y => decide (key y = s)) := by
  intro l
  induction l with
  | nil =>
    intro acc hacc
    exact ⟨hacc, by simp, by simp⟩
  | cons x xs ih =>
    intro acc hacc
    simp only [List.foldl_cons]
    rcases ih (insertDesc key x acc) (insertDesc_sorted key x hacc) with ⟨h1, h2, h3⟩
    refine ⟨h1, ?_, ?_⟩
    · have hstep : (insertDesc key x acc ++ xs).Perm (acc ++ x :: xs) := by
        have := (insertDesc_perm key x acc).append_right xs
        exact this.trans List.perm_middle.symm
      exact h2.trans hstep
    · rw [h3, insertDesc_filter key x s hacc, List.filter_cons]
      by_cases hx : key x = s
      · rw [if_pos hx]
        simp [hx]
      · rw [if_neg hx]
        simp [hx]

theorem pysortDesc_sorted {α : Type} (key : α → ℚ) (l : List α) :
    (pysortDesc key l).Pairwise (fun a b => key b ≤ key a) :=
  (foldl_insertDesc_props key 0 l [] (List.Pairwise.nil)).1

theorem pysortDesc_perm {α : Type} (key : α → ℚ) (l : List α) :
    (pysortDesc key l).Perm l := by
  have := (foldl_insertDesc_props key 0 l [] (List.Pairwise.nil)).2.1
  simpa [pysortDesc] using this

theorem pysortDesc_filter {α : Type} (key : α → ℚ) (s : ℚ) (l : List α) :
    (pysortDesc key l).filter (fun y => decide (key y = s)) =
      l.filter (fun y => decide (key y = s)) := by
  have := (foldl_insertDesc_props key s l [] (List.Pairwise.nil)).2.2
  simpa [pysortDesc] using this

theorem getNum_dinsert_self (r : PyDict) (k : String) (q : ℚ) :
    getNum (dinsert r k (Val.num q)) k = q := by
  unfold getNum
  rw [dget_dinsert_self]

theorem getNum_dinsert_ne (r : PyDict) (k k' : String) (v : Val) (h : k' ≠ k) :
    getNum (dinsert r k v) k' = getNum r k' := by
  unfold getNum
  rw [dget_dinsert_ne _ _ _ _ h]

theorem getStr_dinsert_self (r : PyDict) (k : String) (s : String) :
    getStr (dinsert r k (Val.str s)) k = s := by
  unfold getStr
  rw [dget_dinsert_self]

theorem getStr_dinsert_ne (r : PyDict) (k k' : String) (v : Val) (h : k' ≠ k) :
    getStr (dinsert r k v) k' = getStr r k' := by
  unfold getStr
  rw [dget_dinsert_ne _ _ _ _ h]

theorem getDict_dinsert_ne (r : PyDict) (k k' : String) (v : Val) (h : k' ≠ k) :
    getDict (dinsert r k v) k' = getDict r k' := by
  unfold getDict
  rw [dget_dinsert_ne _ _ _ _ h]

theorem getNum_addRankFields_composite (i N : ℕ) (r : PyDict) :
    getNum (addRankFields i N r) "composite_score" = getNum r "composite_score" := by
  unfold addRankFields
  rw [getNum_dinsert_ne _ _ _ _ (by decide), getNum_dinsert_ne _ _ _ _ (by decide),
    getNum_dinsert_ne _ _ _ _ (by decide)]

theorem getNum_addRankFields_rank (i N : ℕ) (r : PyDict) :
    getNum (addRankFields i N r) "rank" = (i : ℚ) := by
  unfold addRankFields
  rw [getNum_dinsert_ne _ _ _ _ (by decide), getNum_dinsert_ne _ _ _ _ (by decide),
    getNum_dinsert_self]

theorem getNum_addRankFields_percentile (i N : ℕ) (r : PyDict) :
    getNum (addRankFields i N r) "percentile" =
      roundTo 1 ((1 - ((i : ℚ) - 1) / (N : ℚ)) * 100) := by
  unfold addRankFields
  rw [getNum_dinsert_ne _ _ _ _ (by decide), getNum_dinsert_self]

theorem getStr_addRankFields_label (i N : ℕ) (r : PyDict) :
    getStr (addRankFields i N r) "rank_label" = rankLabel i N := by
  unfold addRankFields
  rw [getStr_dinsert_self]

theorem mem_enumFrom_snd {α : Type} :
    ∀ (l : List α) (n : ℕ) (p : ℕ × α), p ∈ l.enumFrom n → p.2 ∈ l := by
  intro l
  induction l with
  | nil => intro n p hp; simp [List.enumFrom] at hp
  | cons x xs ih =>
    intro n p hp
    simp only [List.enumFrom] at hp
    rcases List.mem_cons.mp hp with rfl | hp2
    · exact List.mem_cons_self _ _
    · exact List.mem_cons_of_mem _ (ih (n + 1) p hp2)

theorem pairwise_enumFrom {α : Type} {T : α → α → Prop} :
    ∀ (l : List α) (n : ℕ), l.Pairwise T →
      (l.enumFrom n).Pairwise (fun p q => T p.2 q.2) := by
  intro l
  induction l with
  | nil => intro n _; simp [List.enumFrom]
  | cons x xs ih =>
    intro n h
    rcases List.pairwise_cons.mp h with ⟨h1, h2⟩
    simp only [List.enumFrom]
    refine List.pairwise_cons.mpr ⟨?_, ih (n + 1) h2⟩
    intro q hq
    exact h1 q.2 (mem_enumFrom_snd xs (n + 1) q hq)

theorem rank_engineers_ne_nil_eq (l : List PyDict) (hne : l ≠ []) :
    rank_engineers l =
      (pysortDesc (fun r => getNum r "composite_score") (scoreStep l)).enum.map
        (fun p => addRankFields (p.1 + 1)
          ((pysortDesc (fun r => getNum r "composite_score") (scoreStep l)).length) p.2) := by
  cases l with
  | nil => exact absurd rfl hne
  | cons x xs => rfl

theorem scoreStep_length (l : List PyDict) : (scoreStep l).length = l.length := by
  simp [scoreStep]

theorem pysort_scoreStep_length (l : List PyDict) :
    (pysortDesc (fun r => getNum r "composite_score") (scoreStep l)).length = l.length := by
  rw [(pysortDesc_perm (fun r => getNum r "composite_score") (scoreStep l)).length_eq,
    scoreStep_length]

theorem rank_engineers_length (l : List PyDict) (hne : l ≠ []) :
    (rank_engineers l).length = l.length := by
  rw [rank_engineers_ne_nil_eq l hne, List.length_map, List.enum_length,
    pysort_scoreStep_length]

theorem rank_engineers_getElem (l : List PyDict) (hne : l ≠ []) (i : ℕ)
    (hi2 : i < (pysortDesc (fun r => getNum r "composite_score") (scoreStep l)).length) :
    ∀ (hi : i < (rank_engineers l).length),
      (rank_engineers l)[i] =
        addRankFields (i + 1)
          ((pysortDesc (fun r => getNum r "composite_score") (scoreStep l)).length)
          ((pysortDesc (fun r => getNum r "composite_score") (scoreStep l)).get ⟨i, hi2⟩) := by
  intro hi
  have heq := rank_engineers_ne_nil_eq l hne
  have hi3 : i < ((pysortDesc (fun r => getNum r "composite_score") (scoreStep l)).enum.map
      (fun p => addRankFields (p.1 + 1)
        ((pysortDesc (fun r => getNum r "composite_score") (scoreStep l)).length) p.2)).length := by
    rw [← heq]; exact hi
  calc (rank_engineers l)[i]
      = ((pysortDesc (fun r => getNum r "composite_score") (scoreStep l)).enum.map
          (fun p => addRankFields (p.1 + 1)
            ((pysortDesc (fun r => getNum r "composite_score") (scoreStep l)).length) p.2))[i] := by
        congr 1
    _ = _ := by
        rw [List.getElem_map]
        congr 1 <;> simp [List.getElem_enum]

/-- C5. `rank_engineers`: the empty list yields an empty ranking; otherwise
the output has one record per input, is sorted by `composite_score`
descending, the sort is stable (for every score value, the records carrying
that score appear in their pre-sort order), ranks are `1..N` in sorted
order, `percentile = (1 - (rank - 1)/N) * 100` rounded to 1 decimal, and the
tier label follows the rank-1 / ≤0.10 / ≤0.50 / otherwise cascade. -/
theorem claim_C5_rank_engineers :
    rank_engineers ([] : List PyDict) = [] ∧
    ∀ (l : List PyDict), l ≠ [] →
      (rank_engineers l).length = l.length ∧
      (rank_engineers l).Pairwise
        (fun a b => getNum b "composite_score" ≤ getNum a "composite_score") ∧
      (∀ s : ℚ,
        (pysortDesc (fun r => getNum r "composite_score") (scoreStep l)).filter
            (fun r => decide (getNum r "composite_score" = s)) =
          (scoreStep l).filter (fun r => decide (getNum r "composite_score" = s))) ∧
      (∀ (i : ℕ) (hi : i < (rank_engineers l).length),
        getNum ((rank_engineers l)[i]) "rank" = (i : ℚ) + 1 ∧
        getNum ((rank_engineers l)[i]) "percentile" =
          roundTo 1 ((1 - (((i : ℚ) + 1) - 1) / (l.length : ℚ)) * 100) ∧
        (i = 0 → getStr ((rank_engineers l)[i]) "rank_label" = "🥇 Top Performer") ∧
        (0 < i → ((i : ℚ) + 1) / (l.length : ℚ) ≤ 1/10 →
          getStr ((rank_engineers l)[i]) "rank_label" = "⭐ High Performer") ∧
        (0 < i → ¬(((i : ℚ) + 1) / (l.length : ℚ) ≤ 1/10) →
          ((i : ℚ) + 1) / (l.length : ℚ) ≤ 1/2 →
          getStr ((rank_engineers l)[i]) "rank_label" = "✓ Above Average") ∧
        (0 < i → ¬(((i : ℚ) + 1) / (l.length : ℚ) ≤ 1/2) →
          getStr ((rank_engineers l)[i]) "rank_label" = "→ Developing")) := by
  constructor
  · rfl
  · intro l hne
    have hlen := rank_engineers_length l hne
    refine ⟨hlen, ?_, ?_, ?_⟩
    · rw [rank_engineers_ne_nil_eq l hne]
      have hsort := pysortDesc_sorted (fun r => getNum r "composite_score") (scoreStep l)
      have hpe := pairwise_enumFrom _ 0 hsort
      have henum : (pysortDesc (fun r => getNum r "composite_score") (scoreStep l)).enum =
          (pysortDesc (fun r => getNum r "composite_score") (scoreStep l)).enumFrom 0 := rfl
      rw [henum]
      refine List.Pairwise.map _ ?_ hpe
      intro a b hab
      simpa [getNum_addRankFields_composite] using hab
    · intro s
      exact pysortDesc_filter _ s _
    · intro i hi
      have hi2 : i < (pysortDesc (fun r => getNum r "composite_score") (scoreStep l)).length := by
        rw [pysort_scoreStep_length]
        rw [hlen] at hi
        exact hi
      have hel := rank_engineers_getElem l hne i hi2 hi
      have hN := pysort_scoreStep_length l
      refine ⟨?_, ?_, ?_, ?_, ?_, ?_⟩
      · rw [hel, getNum_addRankFields_rank]
        push_cast
        ring
      · rw [hel, getNum_addRankFields_percentile, hN]
        congr 1
        push_cast
        ring
      · intro hi0
        subst hi0
        rw [hel, getStr_addRankFields_label, rankLabel, if_pos rfl]
      · intro hipos hcond
        rw [hel, getStr_addRankFields_label, hN, rankLabel]
        rw [if_neg (by omega), if_pos (by push_cast; exact hcond)]
      · intro hipos hcond1 hcond2
        rw [hel, getStr_addRankFields_label, hN, rankLabel]
        rw [if_neg (by omega), if_neg (by push_cast; exact hcond1),
          if_pos (by push_cast; exact hcond2)]
      · intro hipos hcond
        rw [hel, getStr_addRankFields_label, hN, rankLabel]
        have hc1 : ¬(((i + 1 : ℕ) : ℚ) / (l.length : ℚ) ≤ 1/10) := by
          push_cast
          intro hc
          exact hcond (hc.trans (by norm_num))
        have hc2 : ¬(((i + 1 : ℕ) : ℚ) / (l.length : ℚ) ≤ 1/2) := by
          push_cast
          exact hcond
        rw [if_neg (by omega), if_neg hc1, if_neg hc2]

/-- Witness for C5 at a concrete two-engineer list. -/
theorem claim_C5_rank_engineers_witness :
    ([[("github_username", Val.str "a")], [("github_username", Val.str "b")]] :
        List PyDict) ≠ [] ∧
    (rank_engineers [[("github_username", Val.str "a")],
        [("github_username", Val.str "b")]]).length = 2 :=
  ⟨by simp,
   (claim_C5_rank_engineers.2
      [[("github_username", Val.str "a")], [("github_username", Val.str "b")]]
      (by simp)).1⟩

/-- State of `DataCombiner._match_users` (data_processor.py:85-149):
accumulated pairs plus the two shrinking candidate pools. -/
structure MatchState : Type where
  matched : List (String × String)
  github_only : List String
  ticket_only : List String
deriving DecidableEq, Repr

/-- Python `s.lower()`: lower-case every character (written char-by-char so
that it is kernel-computable). -/
def pyLower (s : String) : String := String.mk (s.data.map Char.toLower)

/-- Exact pass body (data_processor.py:104-111): first case-insensitively
equal remaining GitHub user is paired with the ticket user. -/
def exactStep (st : MatchState) (t : String) : MatchState :=
  match st.github_only.find? (fun g => pyLower t == pyLower g) with
  | some g => ⟨st.matched ++ [(g, t)], st.github_only.erase g, st.ticket_only.erase t⟩
  | none => st

/-- Manual pass body (data_processor.py:113-120): the mapped GitHub user is
paired if it is still unmatched. -/
def manualStep (tmm : List (String × String)) (st : MatchState) (t : String) : MatchState :=
  match tmm.lookup t with
  | some g =>
    if g ∈ st.github_only then
      ⟨st.matched ++ [(g, t)], st.github_only.erase g, st.ticket_only.erase t⟩
    else st
  | none => st

/-- Python `s.replace(c, '')` for a one-character pattern: drop every
occurrence of the character (written as an explicit filter so that it is
kernel-computable). -/
def removeAll (c : Char) (s : String) : String :=
  String.mk (s.data.filter (fun x => decide (x ≠ c)))

/-- Ticket-side normalization in the fuzzy pass:
`ticket_user.lower().replace(' ', '')`. -/
def normTicket (t : String) : String := removeAll ' ' (pyLower t)

/-- GitHub-side normalization in the fuzzy pass:
`github_user.lower().replace('-', '').replace('_', '')`. -/
def normGithub (g : String) : String := removeAll '_' (removeAll '-' (pyLower g))

/-- The inner loop of the fuzzy pass (data_processor.py:124-137): starting
from threshold 0.7 with no candidate, a GitHub user replaces the current
best exactly when its similarity strictly exceeds the best so far.  The
similarity function `sim` abstracts `difflib.SequenceMatcher(...).ratio()`,
an external library routine; it is applied to the normalized strings. -/
def fuzzyBest (sim : String → String → ℚ) (t : String) (gh : List String) :
    ℚ × Option String :=
  gh.foldl (fun acc g =>
    if acc.1 < sim (normTicket t) (normGithub g) then
      (sim (normTicket t) (normGithub g), some g)
    else acc) (7/10, none)

/-- Fuzzy pass body (data_processor.py:122-143). -/
def fuzzyStep (sim : String → String → ℚ) (st : MatchState) (t : String) : MatchState :=
  match (fuzzyBest sim t st.github_only).2 with
  | some g => ⟨st.matched ++ [(g, t)], st.github_only.erase g, st.ticket_only.erase t⟩
  | none => st

/-- `DataCombiner._match_users` (data_processor.py:85-149): three cascading
passes over snapshots of the remaining ticket users.  The input sets are
modelled as duplicate-free lists fixing an iteration order. -/
def matchUsers (sim : String → String → ℚ) (tmm : List (String × String))
    (gh tk : List String) : MatchState :=
  let st0 : MatchState := ⟨[], gh, tk⟩
  let st1 := st0.ticket_only.foldl exactStep st0
  let st2 := st1.ticket_only.foldl (manualStep tmm) st1
  st2.ticket_only.foldl (fuzzyStep sim) st2

/-- Shape shared by the three matching passes: either the state is unchanged,
or one remaining GitHub user is paired with the current ticket user and both
leave their pools. -/
def StepOK (f : MatchState → String → MatchState) : Prop :=
  ∀ st t, f st t = st ∨ ∃ g, g ∈ st.github_only ∧
    f st t = ⟨st.matched ++ [(g, t)], st.github_only.erase g, st.ticket_only.erase t⟩

theorem exactStep_ok : StepOK exactStep := by
  intro st t
  unfold exactStep
  cases hf : st.github_only.find? (fun g => pyLower t == pyLower g) with
  | none => exact Or.inl rfl
  | some g => exact Or.inr ⟨g, List.mem_of_find?_eq_some hf, rfl⟩

theorem manualStep_ok (tmm : List (String × String)) : StepOK (manualStep tmm) := by
  intro st t
  unfold manualStep
  cases hf : tmm.lookup t with
  | none => exact Or.inl rfl
  | some g =>
    by_cases hg : g ∈ st.github_only
    · exact Or.inr ⟨g, hg, by simp [hg]⟩
    · exact Or.inl (by simp [hg])

theorem fuzzyBest_mem (sim : String → String → ℚ) (t : String) :
    ∀ (gh : List String) (acc : ℚ × Option String) (g : String),
      (gh.foldl (fun acc g =>
        if acc.1 < sim (normTicket t) (normGithub g) then
          (sim (normTicket t) (normGithub g), some g)
        else acc) acc).2 = some g →
      acc.2 = some g ∨ g ∈ gh := by
  intro gh
  induction gh with
  | nil => intro acc g h; exact Or.inl h
  | cons x xs ih =>
    intro acc g h
    simp only [List.foldl_cons] at h
    rcases ih _ g h with h2 | h2
    · by_cases hc : acc.1 < sim (normTicket t) (normGithub x)
      · rw [if_pos hc] at h2
        have hx : x = g := by simpa using h2
        exact Or.inr (hx ▸ List.mem_cons_self x xs)
      · rw [if_neg hc] at h2
        exact Or.inl h2
    · exact Or.inr (List.mem_cons_of_mem _ h2)

theorem fuzzyStep_ok (sim : String → String → ℚ) : StepOK (fuzzyStep sim) := by
  intro st t
  unfold fuzzyStep
  cases hf : (fuzzyBest sim t st.github_only).2 with
  | none => exact Or.inl rfl
  | some g =>
    refine Or.inr ⟨g, ?_, rfl⟩
    rcases fuzzyBest_mem sim t st.github_only (7/10, none) g hf with h | h
    · simp at h
    · exact h

/-- The matcher invariant: pools are duplicate-free, and for every identity
the number of pairs it occurs in plus its occurrences in the leftover pool
equals its occurrences in the original input. -/
def MatchInv (gh0 tk0 : List String) (st : MatchState) : Prop :=
  st.github_only.Nodup ∧ st.ticket_only.Nodup ∧
  (∀ x, (st.matched.map Prod.fst).count x + st.github_only.count x = gh0.count x) ∧
  (∀ x, (st.matched.map Prod.snd).count x + st.ticket_only.count x = tk0.count x)

theorem matchInv_step {gh0 tk0 : List String} {f : MatchState → String → MatchState}
    (hok : StepOK f) {st : MatchState} {t : String} (ht : t ∈ st.ticket_only)
    (hinv : MatchInv gh0 tk0 st) : MatchInv gh0 tk0 (f st t) := by
  rcases hok st t with heq | ⟨g, hg, heq⟩
  · rw [heq]; exact hinv
  · rw [heq]
    rcases hinv with ⟨h1, h2, h3, h4⟩
    refine ⟨h1.erase g, h2.erase t, ?_, ?_⟩
    · intro x
      simp only [List.map_append, List.map_cons, List.map_nil, List.count_append]
      by_cases hx : x = g
      · subst hx
        have hpos : 0 < st.github_only.count x := List.count_pos_iff.mpr hg
        have := h3 x
        rw [List.count_erase_self]
        simp only [List.count_cons_self, List.count_nil]
        omega
      · rw [List.count_erase_of_ne hx]
        have := h3 x
        have hzero : ([(g, t)].map Prod.fst).count x = 0 := by
          simp [List.count_singleton, hx]
        simp only [List.map_cons, List.map_nil] at hzero
        omega
    · intro x
      simp only [List.map_append, List.map_cons, List.map_nil, List.count_append]
      by_cases hx : x = t
      · subst hx
        have hpos : 0 < st.ticket_only.count x := List.count_pos_iff.mpr ht
        have := h4 x
        rw [List.count_erase_self]
        simp only [List.count_cons_self, List.count_nil]
        omega
      · rw [List.count_erase_of_ne hx]
        have := h4 x
        have hzero : ([(g, t)].map Prod.snd).count x = 0 := by
          simp [List.count_singleton, hx]
        simp only [List.map_cons, List.map_nil] at hzero
        omega

theorem matchInv_foldl {gh0 tk0 : List String} {f : MatchState → String → MatchState}
    (hok : StepOK f) :
    ∀ (P : List String) (st : MatchState), P.Nodup → (∀ x ∈ P, x ∈ st.ticket_only) →
      MatchInv gh0 tk0 st → MatchInv gh0 tk0 (P.foldl f st) := by
  intro P
  induction P with
  | nil => intro st _ _ h; exact h
  | cons t ts ih =>
    intro st hnd hsub hinv
    rcases List.nodup_cons.mp hnd with ⟨htnot, hnd2⟩
    simp only [List.foldl_cons]
    refine ih (f st t) hnd2 ?_ (matchInv_step hok (hsub t (List.mem_cons_self _ _)) hinv)
    intro x hx
    have hxst : x ∈ st.ticket_only := hsub x (List.mem_cons_of_mem _ hx)
    have hxt : x ≠ t := fun hc => htnot (hc ▸ hx)
    rcases hok st t with heq | ⟨g, _, heq⟩
    · rw [heq]; exact hxst
    · rw [heq]
      exact (List.mem_erase_of_ne hxt).mpr hxst

theorem matchUsers_inv (sim : String → String → ℚ) (tmm : List (String × String))
    (gh tk : List String) (hg : gh.Nodup) (ht : tk.Nodup) :
    MatchInv gh tk (matchUsers sim tmm gh tk) := by
  unfold matchUsers
  have h0 : MatchInv gh tk ⟨[], gh, tk⟩ := by
    refine ⟨hg, ht, ?_, ?_⟩ <;> intro x <;> simp
  have h1 := matchInv_foldl exactStep_ok (⟨[], gh, tk⟩ : MatchState).ticket_only
    ⟨[], gh, tk⟩ h0.2.1 (fun x hx => hx) h0
  have h2 := matchInv_foldl (manualStep_ok tmm) _ _ h1.2.1 (fun x hx => hx) h1
  exact matchInv_foldl (fuzzyStep_ok sim) _ _ h2.2.1 (fun x hx => hx) h2

/-- C1. `_match_users` produces a partition: pairs are duplicate-free on both
sides, every input GitHub identity occurs exactly once across pairs plus the
GitHub-only pool, every ticket identity exactly once across pairs plus the
ticket-only pool, and nothing outside the inputs ever appears. -/
theorem claim_C1_match_partition (sim : String → String → ℚ)
    (tmm : List (String × String)) (gh tk : List String)
    (hg : gh.Nodup) (ht : tk.Nodup) :
    ((matchUsers sim tmm gh tk).matched.map Prod.fst).Nodup ∧
    ((matchUsers sim tmm gh tk).matched.map Prod.snd).Nodup ∧
    (∀ g ∈ gh, ((matchUsers sim tmm gh tk).matched.map Prod.fst).count g +
      (matchUsers sim tmm gh tk).github_only.count g = 1) ∧
    (∀ t ∈ tk, ((matchUsers sim tmm gh tk).matched.map Prod.snd).count t +
      (matchUsers sim tmm gh tk).ticket_only.count t = 1) ∧
    (∀ p ∈ (matchUsers sim tmm gh tk).matched, p.1 ∈ gh ∧ p.2 ∈ tk) ∧
    (∀ g ∈ (matchUsers sim tmm gh tk).github_only, g ∈ gh) ∧
    (∀ t ∈ (matchUsers sim tmm gh tk).ticket_only, t ∈ tk) := by
  obtain ⟨h1, h2, h3, h4⟩ := matchUsers_inv sim tmm gh tk hg ht
  have hgcount : ∀ x, ((matchUsers sim tmm gh tk).matched.map Prod.fst).count x ≤ gh.count x := by
    intro x
    have := h3 x
    omega
  have htcount : ∀ x, ((matchUsers sim tmm gh tk).matched.map Prod.snd).count x ≤ tk.count x := by
    intro x
    have := h4 x
    omega
  refine ⟨?_, ?_, ?_, ?_, ?_, ?_, ?_⟩
  · rw [List.nodup_iff_count_le_one]
    intro a
    exact (hgcount a).trans (List.nodup_iff_count_le_one.mp hg a)
  · rw [List.nodup_iff_count_le_one]
    intro a
    exact (htcount a).trans (List.nodup_iff_count_le_one.mp ht a)
  · intro g hgm
    have := h3 g
    rw [List.count_eq_one_of_mem hg hgm] at this
    omega
  · intro t htm
    have := h4 t
    rw [List.count_eq_one_of_mem ht htm] at this
    omega
  · intro p hp
    constructor
    · have hm : p.1 ∈ (matchUsers sim tmm gh tk).matched.map Prod.fst :=
        List.mem_map_of_mem _ hp
      have := h3 p.1
      have hpos := List.count_pos_iff.mpr hm
      exact List.count_pos_iff.mp (by omega)
    · have hm : p.2 ∈ (matchUsers sim tmm gh tk).matched.map Prod.snd :=
        List.mem_map_of_mem _ hp
      have := h4 p.2
      have hpos := List.count_pos_iff.mpr hm
      exact List.count_pos_iff.mp (by omega)
  · intro g hgm
    have := h3 g
    have hpos := List.count_pos_iff.mpr hgm
    exact List.count_pos_iff.mp (by omega)
  · intro t htm
    have := h4 t
    have hpos := List.count_pos_iff.mpr htm
    exact List.count_pos_iff.mp (by omega)

/-- Witness for C1 on a concrete instance exercising all three passes. -/
theorem claim_C1_match_partition_witness :
    (["alice", "Bob"] : List String).Nodup ∧ (["ALICE", "Charlie"] : List String).Nodup ∧
    (∀ g ∈ (["alice", "Bob"] : List String),
      ((matchUsers (fun _ _ => 0) [("Charlie", "Bob")] ["alice", "Bob"]
          ["ALICE", "Charlie"]).matched.map Prod.fst).count g +
        (matchUsers (fun _ _ => 0) [("Charlie", "Bob")] ["alice", "Bob"]
          ["ALICE", "Charlie"]).github_only.count g = 1) :=
  ⟨by decide, by decide,
   (claim_C1_match_partition (fun _ _ => 0) [("Charlie", "Bob")] ["alice", "Bob"]
      ["ALICE", "Charlie"] (by decide) (by decide)).2.2.1⟩

theorem le_foldl_max (b : ℚ) (xs : List ℚ) : b ≤ xs.foldl max b := by
  induction xs generalizing b with
  | nil => exact le_refl b
  | cons y ys ih =>
    simp only [List.foldl_cons]
    exact (le_max_left b y).trans (ih (max b y))

theorem foldl_max_init (xs : List ℚ) :
    ∀ b : ℚ, xs.foldl max b = if xs.isEmpty then b else max b (pymax xs) := by
  induction xs with
  | nil => intro b; simp
  | cons y ys ih =>
    intro b
    simp only [List.foldl_cons, List.isEmpty_cons, if_false]
    rw [ih (max b y)]
    have hpy : pymax (y :: ys) = ys.foldl max y := rfl
    rw [hpy, ih y]
    cases ys with
    | nil => simp
    | cons z zs =>
      simp [max_assoc]

theorem foldBest_char {α : Type} (r : α → ℚ) :
    ∀ (gh : List α) (b : ℚ) (m : Option α),
      gh.foldl (fun acc g => if acc.1 < r g then (r g, some g) else acc) (b, m) =
        (gh.foldl (fun a g => max a (r g)) b,
         if gh.foldl (fun a g => max a (r g)) b = b then m
         else gh.find? (fun g => r g == gh.foldl (fun a g => max a (r g)) b)) := by
  intro gh
  induction gh with
  | nil =>
    intro b m
    simp
  | cons x xs ih =>
    intro b m
    simp only [List.foldl_cons]
    have hge : max b (r x) ≤ xs.foldl (fun a g => max a (r g)) (max b (r x)) := by
      have := le_foldl_max (max b (r x)) (xs.map r)
      rw [List.foldl_map] at this
      exact this
    by_cases hc : b < r x
    · rw [if_pos hc]
      rw [ih (r x) (some x)]
      have hmx : max b (r x) = r x := max_eq_right (le_of_lt hc)
      rw [hmx] at hge ⊢
      have hMb : xs.foldl (fun a g => max a (r g)) (r x) ≠ b := by
        intro hcon
        have : r x ≤ b := hcon ▸ hge
        exact absurd hc (not_lt.mpr this)
      rw [if_neg hMb]
      by_cases hM : xs.foldl (fun a g => max a (r g)) (r x) = r x
      · rw [if_pos hM, List.find?_cons, hM]
        simp
      · rw [if_neg hM, List.find?_cons]
        have : (r x == xs.foldl (fun a g => max a (r g)) (r x)) = false := by
          simp only [beq_eq_false_iff_ne, ne_eq]
          exact fun hcon => hM hcon.symm
        rw [this]
    · rw [if_neg hc]
      rw [ih b m]
      have hmx : max b (r x) = b := max_eq_left (not_lt.mp hc)
      rw [hmx] at hge ⊢
      by_cases hM : xs.foldl (fun a g => max a (r g)) b = b
      · rw [if_pos hM, if_pos hM]
      · rw [if_neg hM, if_neg hM, List.find?_cons]
        have hlt : r x < xs.foldl (fun a g => max a (r g)) b :=
          lt_of_le_of_lt (not_lt.mp hc) (lt_of_le_of_ne hge (fun hcon => hM hcon.symm))
        have : (r x == xs.foldl (fun a g => max a (r g)) b) = false := by
          simp only [beq_eq_false_iff_ne, ne_eq]
          exact ne_of_lt hlt
        rw [this]

/-- The fuzzy pass step as the specification words it: compute the similarity
of the normalized ticket name against every remaining normalized GitHub
name; if the maximum strictly exceeds 0.70, pair the ticket user with the
first-encountered GitHub user attaining that maximum and remove it from the
pool; otherwise leave the state unchanged. -/
def specFuzzyStep (sim : String → String → ℚ) (st : MatchState) (t : String) : MatchState :=
  let rs := st.github_only.map (fun g => sim (normTicket t) (normGithub g))
  if 7/10 < pymax rs then
    match st.github_only.find? (fun g => sim (normTicket t) (normGithub g) == pymax rs) with
    | some g => ⟨st.matched ++ [(g, t)], st.github_only.erase g, st.ticket_only.erase t⟩
    | none => st
  else st

theorem fuzzyBest_char (sim : String → String → ℚ) (t : String) (gh : List String) :
    fuzzyBest sim t gh =
      (gh.foldl (fun a g => max a (sim (normTicket t) (normGithub g))) (7/10),
       if gh.foldl (fun a g => max a (sim (normTicket t) (normGithub g))) (7/10) = 7/10
       then none
       else gh.find? (fun g => sim (normTicket t) (normGithub g) ==
         gh.foldl (fun a g => max a (sim (normTicket t) (normGithub g))) (7/10))) :=
  foldBest_char (fun g => sim (normTicket t) (normGithub g)) gh (7/10) none

theorem fuzzyStep_eq_spec (sim : String → String → ℚ) (st : MatchState) (t : String) :
    fuzzyStep sim st t = specFuzzyStep sim st t := by
  unfold fuzzyStep specFuzzyStep
  rw [fuzzyBest_char]
  cases hgh : st.github_only with
  | nil =>
    simp only [List.map_nil, List.foldl_nil, if_pos rfl]
    norm_num [pymax]
  | cons x xs =>
    have hfm : (x :: xs).foldl (fun a g => max a (sim (normTicket t) (normGithub g))) (7/10) =
        ((x :: xs).map (fun g => sim (normTicket t) (normGithub g))).foldl max (7/10) := by
      rw [List.foldl_map]
    have hM : (x :: xs).foldl (fun a g => max a (sim (normTicket t) (normGithub g))) (7/10) =
        max (7/10)
          (pymax ((x :: xs).map (fun g => sim (normTicket t) (normGithub g)))) := by
      rw [hfm, foldl_max_init]
      simp
    rw [hM]
    by_cases hc :
        (7:ℚ)/10 < pymax ((x :: xs).map (fun g => sim (normTicket t) (normGithub g)))
    · rw [if_pos hc]
      have hmx : max ((7:ℚ)/10)
          (pymax ((x :: xs).map (fun g => sim (normTicket t) (normGithub g)))) =
          pymax ((x :: xs).map (fun g => sim (normTicket t) (normGithub g))) :=
        max_eq_right (le_of_lt hc)
      rw [hmx, if_neg (ne_of_gt hc)]
    · rw [if_neg hc]
      have hmx : max ((7:ℚ)/10)
          (pymax ((x :: xs).map (fun g => sim (normTicket t) (normGithub g)))) =
          (7:ℚ)/10 :=
        max_eq_left (not_lt.mp hc)
      rw [hmx, if_pos rfl]

theorem foldl_ext {σ α : Type} (f g : σ → α → σ) (h : ∀ s a, f s a = g s a) :
    ∀ (l : List α) (s : σ), l.foldl f s = l.foldl g s := by
  intro l
  induction l with
  | nil => intro s; rfl
  | cons x xs ih =>
    intro s
    simp only [List.foldl_cons]
    rw [h s x, ih (g s x)]

/-- C3. The fuzzy pass is the specification's greedy best-match loop: each
step equals the spec-side step (maximum normalized similarity, strictly
above 0.70, first-encountered tie-break, chosen user removed from the
pool), the whole pass is the fold of that step over the remaining ticket
users in order (earlier pairings are only ever appended to), and a maximum
similarity of exactly 0.70 or below pairs nothing. -/
theorem claim_C3_fuzzy_pass (sim : String → String → ℚ) :
    (∀ (st : MatchState) (t : String), fuzzyStep sim st t = specFuzzyStep sim st t) ∧
    (∀ st : MatchState,
      st.ticket_only.foldl (fuzzyStep sim) st =
        st.ticket_only.foldl (specFuzzyStep sim) st) ∧
    (∀ (st : MatchState) (t : String),
      pymax (st.github_only.map (fun g => sim (normTicket t) (normGithub g))) ≤ 7/10 →
      fuzzyStep sim st t = st) := by
  refine ⟨fuzzyStep_eq_spec sim, ?_, ?_⟩
  · intro st
    exact foldl_ext _ _ (fuzzyStep_eq_spec sim) st.ticket_only st
  · intro st t hle
    rw [fuzzyStep_eq_spec sim st t]
    unfold specFuzzyStep
    simp only
    rw [if_neg (not_lt.mpr hle)]

/-- Witness for C3: a pool where only one candidate clears the threshold. -/
theorem claim_C3_fuzzy_pass_witness :
    pymax ((⟨[], ["x"], ["y"]⟩ : MatchState).github_only.map
        (fun g => (fun a b => if a = b then (1 : ℚ) else 0) (normTicket "z")
          (normGithub g))) ≤ 7/10 ∧
    fuzzyStep (fun a b => if a = b then (1 : ℚ) else 0) ⟨[], ["x"], ["y"]⟩ "z" =
      ⟨[], ["x"], ["y"]⟩ :=
by
  have hne : normTicket "z" ≠ normGithub "x" := by decide
  have hp : pymax ((⟨[], ["x"], ["y"]⟩ : MatchState).github_only.map
      (fun g => (fun a b => if a = b then (1 : ℚ) else 0) (normTicket "z")
        (normGithub g))) = 0 := by
    simp [pymax, hne]
  refine ⟨by rw [hp]; norm_num, ?_⟩
  exact (claim_C3_fuzzy_pass (fun a b => if a = b then (1 : ℚ) else 0)).2.2
    ⟨[], ["x"], ["y"]⟩ "z" (by rw [hp]; norm_num)

/-- A single-quoted string, as Python `repr`/`str` renders dict keys. -/
def squote (s : String) : String :=
  String.singleton (Char.ofNat 39) ++ s ++ String.singleton (Char.ofNat 39)

mutual
/-- Python `str(...)` of a stored value, used for `str(ticket_types_dict)`
(data_processor.py:203).  Numeral rendering is approximated (ℚ carries no
int/float distinction); no verified property inspects this text. -/
def pyStrOfVal : Val → String
  | Val.num q => if q.den = 1 then toString q.num else toString q
  | Val.str s => squote s
  | Val.strList xs => "[" ++ String.intercalate ", " (xs.map squote) ++ "]"
  | Val.dict ps => "\x7b" ++ String.intercalate ", " (pyStrOfPairs ps) ++ "\x7d"

/-- Renders the entries of a Python dict for `pyStrOfVal`. -/
def pyStrOfPairs : List (String × Val) → List String
  | [] => []
  | p :: ps => (squote p.1 ++ ": " ++ pyStrOfVal p.2) :: pyStrOfPairs ps
end

/-- `d.get(k, [])` read of a string-list field. -/
def getStrList (r : PyDict) (k : String) : List String :=
  match dget r k with
  | some (Val.strList xs) => xs
  | _ => []

/-- One `key: metrics.get(key, 0)` entry of the combined record. -/
def numField (d : PyDict) (k : String) : String × Val := (k, (dget d k).getD (Val.num 0))

/-- One `key: metrics.get(key, default_string)` entry of the combined record. -/
def strField (d : PyDict) (k : String) (dflt : String) : String × Val :=
  (k, (dget d k).getD (Val.str dflt))

/-- A literal `key: value` entry of the combined record. -/
def litField (k : String) (v : Val) : String × Val := (k, v)

/-- `DataCombiner._merge_user_metrics` (data_processor.py:151-210): builds
one flat combined record with zero/empty defaults for every missing field,
in the dict-literal key order of the source. -/
def mergeUserMetrics (username : String) (gm tm : PyDict) (data_source : String) : PyDict :=
  [litField "github_username" (Val.str username),
   strField gm "display_name" username,
   strField gm "email" "",
   numField gm "total_commits",
   numField gm "commit_frequency",
   numField gm "lines_added",
   numField gm "lines_deleted",
   numField gm "lines_changed",
   numField gm "prs_created",
   numField gm "prs_merged",
   numField gm "pr_merge_rate",
   numField gm "avg_pr_size",
   numField gm "issues_closed",
   numField gm "reviews_given",
   numField gm "reviews_received",
   numField gm "review_participation",
   numField gm "avg_review_time_hours",
   litField "active_repos" (Val.str (String.intercalate ", " (getStrList gm "active_repos"))),
   numField tm "total_tickets",
   numField tm "tickets_open",
   numField tm "tickets_closed",
   numField tm "tickets_high_priority",
   numField tm "tickets_medium_priority",
   numField tm "tickets_low_priority",
   numField tm "avg_resolution_time_hours",
   numField tm "avg_first_response_time_hours",
   numField tm "tickets_with_github_issue",
   litField "ticket_types" (Val.str (pyStrOfVal ((dget tm "ticket_types").getD (Val.dict [])))),
   litField "data_sources" (Val.str data_source),
   strField gm "last_active" ""]

/-- `DataCombiner.merge_datasets` (data_processor.py:24-83): one combined
record per matched pair, per GitHub-only user and per ticket-only user. -/
def merge_datasets (sim : String → String → ℚ) (tmm : List (String × String))
    (github_data ticket_data : List (String × PyDict)) : List PyDict :=
  let ms := matchUsers sim tmm ((github_data.map Prod.fst).dedup)
    ((ticket_data.map Prod.fst).dedup)
  (ms.matched.map (fun p =>
    mergeUserMetrics p.1 ((dget github_data p.1).getD [])
      ((dget ticket_data p.2).getD []) "GitHub+Sheets"))
  ++ (ms.github_only.map (fun g =>
    mergeUserMetrics g ((dget github_data g).getD []) [] "GitHub Only"))
  ++ (ms.ticket_only.map (fun t =>
    mergeUserMetrics t [] ((dget ticket_data t).getD []) "Sheets Only"))

/-- C4. `merge_datasets` emits exactly one record per matched pair, per
GitHub-only identity and per ticket-only identity (so the output length is
the sum of the three), every key of either input map is covered by exactly
one of those three groups, and the absent side of a one-sided record is
filled with zero/empty defaults. -/
theorem claim_C4_merge_datasets (sim : String → String → ℚ)
    (tmm : List (String × String)) (gd td : List (String × PyDict)) :
    (merge_datasets sim tmm gd td).length =
      (matchUsers sim tmm ((gd.map Prod.fst).dedup)
          ((td.map Prod.fst).dedup)).matched.length +
        (matchUsers sim tmm ((gd.map Prod.fst).dedup)
          ((td.map Prod.fst).dedup)).github_only.length +
        (matchUsers sim tmm ((gd.map Prod.fst).dedup)
          ((td.map Prod.fst).dedup)).ticket_only.length ∧
    (∀ g ∈ gd.map Prod.fst,
      ((matchUsers sim tmm ((gd.map Prod.fst).dedup)
          ((td.map Prod.fst).dedup)).matched.map Prod.fst).count g +
        (matchUsers sim tmm ((gd.map Prod.fst).dedup)
          ((td.map Prod.fst).dedup)).github_only.count g = 1) ∧
    (∀ t ∈ td.map Prod.fst,
      ((matchUsers sim tmm ((gd.map Prod.fst).dedup)
          ((td.map Prod.fst).dedup)).matched.map Prod.snd).count t +
        (matchUsers sim tmm ((gd.map Prod.fst).dedup)
          ((td.map Prod.fst).dedup)).ticket_only.count t = 1) ∧
    (∀ (u : String) (tm : PyDict),
      getNum (mergeUserMetrics u [] tm "Sheets Only") "total_commits" = 0 ∧
      getNum (mergeUserMetrics u [] tm "Sheets Only") "prs_created" = 0 ∧
      getStr (mergeUserMetrics u [] tm "Sheets Only") "github_username" = u) ∧
    (∀ (u : String) (gm : PyDict),
      getNum (mergeUserMetrics u gm [] "GitHub Only") "total_tickets" = 0 ∧
      getNum (mergeUserMetrics u gm [] "GitHub Only") "tickets_closed" = 0 ∧
      getStr (mergeUserMetrics u gm [] "GitHub Only") "github_username" = u) := by
  obtain ⟨h1, h2, h3, h4⟩ := matchUsers_inv sim tmm ((gd.map Prod.fst).dedup)
    ((td.map Prod.fst).dedup) (List.nodup_dedup _) (List.nodup_dedup _)
  refine ⟨?_, ?_, ?_, ?_, ?_⟩
  · unfold merge_datasets
    simp [List.length_append]
    omega
  · intro g hg
    have hmem : g ∈ (gd.map Prod.fst).dedup := List.mem_dedup.mpr hg
    have := h3 g
    rw [List.count_eq_one_of_mem (List.nodup_dedup _) hmem] at this
    omega
  · intro t htm
    have hmem : t ∈ (td.map Prod.fst).dedup := List.mem_dedup.mpr htm
    have := h4 t
    rw [List.count_eq_one_of_mem (List.nodup_dedup _) hmem] at this
    omega
  · intro u tm
    exact ⟨rfl, rfl, rfl⟩
  · intro u gm
    refine ⟨?_, ?_, rfl⟩ <;>
      simp [mergeUserMetrics, getNum, dget, numField, strField, litField]

/-- Witness for C4 on a concrete one-key-per-side input. -/
theorem claim_C4_merge_datasets_witness :
    "alice" ∈ ([("alice", ([] : PyDict))].map Prod.fst) ∧
    ((matchUsers (fun _ _ => 0) []
        (([("alice", ([] : PyDict))].map Prod.fst).dedup)
        (([("Bob", ([] : PyDict))].map Prod.fst).dedup)).matched.map Prod.fst).count "alice" +
      (matchUsers (fun _ _ => 0) []
        (([("alice", ([] : PyDict))].map Prod.fst).dedup)
        (([("Bob", ([] : PyDict))].map Prod.fst).dedup)).github_only.count "alice" = 1 :=
  ⟨by decide,
   (claim_C4_merge_datasets (fun _ _ => 0) [] [("alice", [])] [("Bob", [])]).2.1
     "alice" (by decide)⟩

/-- A timeline item of a closed issue, as inspected by
`GitHubClient._is_valid_issue` (github_fetcher.py:595-611).
`sourceNumber` is true when the item has a truthy `source` dict containing
a `number` key (a CrossReferencedEvent pointing at a PR); `subjectNumber`
likewise for a `subject` dict (a ConnectedEvent). -/
structure TimelineItem : Type where
  sourceNumber : Bool
  subjectNumber : Bool
deriving DecidableEq, Repr

/-- A closed issue as consumed by the issue-processing loop of
`aggregate_by_team_member` (github_fetcher.py:817-847).  `closedBy` holds,
for each `closedBy` node, the actor's login (none when the actor is missing
or falsy); `labels` holds the label names. -/
structure GHIssue : Type where
  number : Option Int
  repo : String
  labels : List String
  timeline : List TimelineItem
  closedBy : List (Option String)
deriving DecidableEq, Repr

/-- `GitHubClient._is_valid_issue` (github_fetcher.py:573-618): an issue is
valid iff it carries neither an `invalid` nor a `duplicate` label and some
timeline item cross-references or connects a numbered subject. -/
def isValidIssue (i : GHIssue) : Bool :=
  let labelNames := i.labels.map pyLower
  if labelNames.contains "invalid" || labelNames.contains "duplicate" then false
  else i.timeline.any (fun it => it.sourceNumber || it.subjectNumber)

/-- The closer extraction (github_fetcher.py:829-833): the first `closedBy`
node's actor login, required truthy (`if closer and closer.get('login')`). -/
def closerOf (i : GHIssue) : Option String :=
  match i.closedBy.head? with
  | some (some u) => if u = "" then none else some u
  | _ => none

/-- Per-user accumulator for the issue loop: the `issues_closed` counter and
the `issue_numbers` dedup set (modelled as a list; it is proven
duplicate-free). -/
structure IssueAcc : Type where
  issues_closed : ℕ
  issue_numbers : List (Option Int)
deriving DecidableEq, Repr

/-- One iteration of the issue loop of `aggregate_by_team_member`
(github_fetcher.py:820-847): skip invalid issues and issues without a
truthy closer login, then count the issue for its closer unless that
closer has already been credited with the same issue number. -/
def processIssue (m : List (String × IssueAcc)) (i : GHIssue) :
    List (String × IssueAcc) :=
  if !(isValidIssue i) then m
  else
    match closerOf i with
    | none => m
    | some u =>
      let acc := (dget m u).getD ⟨0, []⟩
      if i.number ∈ acc.issue_numbers then m
      else dinsert m u ⟨acc.issues_closed + 1, acc.issue_numbers ++ [i.number]⟩

/-- The issue loop of `aggregate_by_team_member` over the whole issue list,
starting from the empty (defaultdict) metrics map. -/
def processIssues (l : List GHIssue) : List (String × IssueAcc) :=
  l.foldl processIssue []

theorem dget_mem {α : Type} : ∀ (m : List (String × α)) (k : String) (a : α),
    dget m k = some a → (k, a) ∈ m := by
  intro m
  induction m with
  | nil => intro k a h; simp [dget] at h
  | cons p ps ih =>
    intro k a h
    obtain ⟨p1, p2⟩ := p
    by_cases hk : p1 = k
    · subst hk
      rw [dget, if_pos rfl] at h
      have hpa : p2 = a := Option.some.inj h
      subst hpa
      exact List.mem_cons_self _ _
    · rw [dget] at h
      simp only [if_neg hk] at h
      exact List.mem_cons_of_mem _ (ih k a h)

/-- The per-user bookkeeping property of the issue loop: the counter equals
the number of recorded issue numbers, those numbers are pairwise distinct,
and each one stems from a valid issue of the input closed by this user. -/
def GoodAcc (S : List GHIssue) (p : String × IssueAcc) : Prop :=
  p.2.issues_closed = p.2.issue_numbers.length ∧ p.2.issue_numbers.Nodup ∧
  ∀ n ∈ p.2.issue_numbers, ∃ i ∈ S, isValidIssue i = true ∧
    closerOf i = some p.1 ∧ i.number = n

theorem processIssue_good {S : List GHIssue} {m : List (String × IssueAcc)}
    {i : GHIssue} (hiS : i ∈ S) (hm : ∀ p ∈ m, GoodAcc S p) :
    ∀ p ∈ processIssue m i, GoodAcc S p := by
  intro p hp
  unfold processIssue at hp
  cases hval : isValidIssue i with
  | false =>
    rw [hval] at hp
    simp only [Bool.not_false, if_pos rfl] at hp
    exact hm p hp
  | true =>
    rw [hval] at hp
    simp only [Bool.not_true] at hp
    rw [if_neg (by simp)] at hp
    cases hcl : closerOf i with
    | none =>
      rw [hcl] at hp
      exact hm p hp
    | some u =>
      rw [hcl] at hp
      simp only at hp
      by_cases hmem : i.number ∈ ((dget m u).getD ⟨0, []⟩).issue_numbers
      · rw [if_pos hmem] at hp
        exact hm p hp
      · rw [if_neg hmem] at hp
        have hacc : GoodAcc S (u, (dget m u).getD ⟨0, []⟩) := by
          cases hd : dget m u with
          | none =>
            simp only [hd, Option.getD_none]
            exact ⟨rfl, List.nodup_nil, by intro n hn; simp at hn⟩
          | some a =>
            simp only [hd, Option.getD_some]
            exact hm (u, a) (dget_mem m u a hd)
        rcases mem_dinsert hp with h2 | h2
        · exact hm p h2
        · subst h2
          obtain ⟨g1, g2, g3⟩ := hacc
          simp only at g1 g2 g3
          refine ⟨by simp [g1], ?_, ?_⟩
          · have hcons : (i.number :: ((dget m u).getD ⟨0, []⟩).issue_numbers).Nodup :=
              List.nodup_cons.mpr ⟨hmem, g2⟩
            exact (List.perm_append_singleton _ _).nodup_iff.mpr hcons
          · intro n hn
            rcases List.mem_append.mp hn with hn2 | hn2
            · exact g3 n hn2
            · rw [List.mem_singleton] at hn2
              exact ⟨i, hiS, hval, hcl, hn2.symm⟩

theorem processIssues_good (S : List GHIssue) :
    ∀ (l : List GHIssue) (m : List (String × IssueAcc)),
      (∀ i ∈ l, i ∈ S) → (∀ p ∈ m, GoodAcc S p) →
      ∀ p ∈ l.foldl processIssue m, GoodAcc S p := by
  intro l
  induction l with
  | nil => intro m _ hm; exact hm
  | cons i is ih =>
    intro m hsub hm
    simp only [List.foldl_cons]
    exact ih (processIssue m i) (fun j hj => hsub j (List.mem_cons_of_mem _ hj))
      (processIssue_good (hsub i (List.mem_cons_self _ _)) hm)

/-- Counterexample to C2 as stated: two valid issues carrying the same issue
number from different repositories, closed by different users, are both
counted — the number is attributed to two closers and counted twice
system-wide (the dedup set in the source is kept per user, not globally). -/
theorem claim_C2_issue_attribution_counterexample :
    ((processIssues
        [⟨some 1, "r1", [], [⟨true, false⟩], [some "alice"]⟩,
         ⟨some 1, "r2", [], [⟨true, false⟩], [some "bob"]⟩]).filter
      (fun p => decide ((some (1 : Int)) ∈ p.2.issue_numbers))).length = 2 ∧
    (dget (processIssues
        [⟨some 1, "r1", [], [⟨true, false⟩], [some "alice"]⟩,
         ⟨some 1, "r2", [], [⟨true, false⟩], [some "bob"]⟩]) "alice").map
      IssueAcc.issues_closed = some 1 ∧
    (dget (processIssues
        [⟨some 1, "r1", [], [⟨true, false⟩], [some "alice"]⟩,
         ⟨some 1, "r2", [], [⟨true, false⟩], [some "bob"]⟩]) "bob").map
      IssueAcc.issues_closed = some 1 := by
  refine ⟨?_, ?_, ?_⟩ <;> rfl

/-- C2 (amended). An issue increments a closer's `issues_closed` only if it
is valid (no `invalid`/`duplicate` label and at least one linked PR), and
the dedup is per user: for every user in the result the counter equals the
number of recorded distinct issue numbers, and every recorded number comes
from a valid input issue closed by that user (so duplicate entries for the
same issue/user pair never double-count, but the same number closed by two
different users is counted once for each of them). -/
theorem claim_C2_issue_attribution_amended :
    (∀ (m : List (String × IssueAcc)) (i : GHIssue),
      isValidIssue i = false → processIssue m i = m) ∧
    (∀ (l : List GHIssue) (p : String × IssueAcc), p ∈ processIssues l →
      p.2.issues_closed = p.2.issue_numbers.length ∧
      p.2.issue_numbers.Nodup ∧
      ∀ n ∈ p.2.issue_numbers, ∃ i ∈ l, isValidIssue i = true ∧
        closerOf i = some p.1 ∧ i.number = n) := by
  constructor
  · intro m i h
    unfold processIssue
    rw [h]
    simp
  · intro l p hp
    exact processIssues_good l l [] (fun i hi => hi)
      (fun q hq => absurd hq (List.not_mem_nil q)) p hp

/-- Witness for the amended C2 on a concrete run with a duplicate entry for
the same issue/user pair (counted once) and an invalid issue (skipped). -/
theorem claim_C2_issue_attribution_amended_witness :
    (("carol", (⟨1, [some 5]⟩ : IssueAcc)) ∈ processIssues
        [⟨some 5, "r", [], [⟨true, false⟩], [some "carol"]⟩,
         ⟨some 5, "r", [], [⟨true, false⟩], [some "carol"]⟩,
         ⟨some 6, "r", ["invalid"], [⟨true, false⟩], [some "carol"]⟩]) ∧
    (1 = [some (5 : Int)].length ∧ ([some (5 : Int)] : List (Option Int)).Nodup ∧
      ∀ n ∈ ([some (5 : Int)] : List (Option Int)),
        ∃ i ∈ [(⟨some 5, "r", [], [⟨true, false⟩], [some "carol"]⟩ : GHIssue),
               ⟨some 5, "r", [], [⟨true, false⟩], [some "carol"]⟩,
               ⟨some 6, "r", ["invalid"], [⟨true, false⟩], [some "carol"]⟩],
          isValidIssue i = true ∧ closerOf i = some "carol" ∧ i.number = n) :=
  ⟨by decide,
   claim_C2_issue_attribution_amended.2
     [⟨some 5, "r", [], [⟨true, false⟩], [some "carol"]⟩,
      ⟨some 5, "r", [], [⟨true, false⟩], [some "carol"]⟩,
      ⟨some 6, "r", ["invalid"], [⟨true, false⟩], [some "carol"]⟩]
     ("carol", ⟨1, [some 5]⟩) (by decide)⟩

/-- The per-record body of `MetricsCalculator.calculate_derived_metrics`
(data_processor.py:301-326): writes `commits_per_ticket`, `activity_score`
and `ticket_closure_rate` into the record. -/
def calcDerivedOne (r : PyDict) : PyDict :=
  let total_commits := getNum r "total_commits"
  let total_tickets := getNum r "total_tickets"
  let r1 := dinsert r "commits_per_ticket"
    (Val.num (if 0 < total_tickets then roundTo 1 (total_commits / total_tickets) else 0))
  let activity_score := total_commits * 1 + getNum r1 "prs_created" * 2 +
    getNum r1 "reviews_given" * (3/2) + total_tickets * 1
  let r2 := dinsert r1 "activity_score" (Val.num (roundTo 1 activity_score))
  let tickets_closed := getNum r2 "tickets_closed"
  dinsert r2 "ticket_closure_rate"
    (Val.num (if 0 < total_tickets then roundTo 1 (tickets_closed / total_tickets * 100) else 0))

/-- `MetricsCalculator.calculate_derived_metrics` (data_processor.py:291-328). -/
def calculate_derived_metrics (l : List PyDict) : List PyDict := l.map calcDerivedOne

theorem getNum_calcDerivedOne_activity (r : PyDict) :
    getNum (calcDerivedOne r) "activity_score" =
      roundTo 1 (getNum r "total_commits" * 1 + getNum r "prs_created" * 2 +
        getNum r "reviews_given" * (3/2) + getNum r "total_tickets" * 1) := by
  unfold calcDerivedOne
  simp only
  rw [getNum_dinsert_ne _ _ _ _ (by decide), getNum_dinsert_self]
  congr 2
  rw [getNum_dinsert_ne _ _ _ _ (by decide), getNum_dinsert_ne _ _ _ _ (by decide)]

/-- Counterexample to C9 as stated: a record entering
`calculate_derived_metrics` with a pre-existing `activity_score` of 999 has
that field recomputed and overwritten (to 0 here), so a field value present
on an input record is not always preserved. -/
theorem claim_C9_no_mutation_counterexample :
    getNum [("activity_score", Val.num 999)] "activity_score" = 999 ∧
    (calculate_derived_metrics [[("activity_score", Val.num 999)]]).map
      (fun r => getNum r "activity_score") = [0] ∧
    (999 : ℚ) ≠ 0 := by
  refine ⟨rfl, ?_, by norm_num⟩
  show [getNum (calcDerivedOne [("activity_score", Val.num 999)]) "activity_score"] = [0]
  rw [getNum_calcDerivedOne_activity]
  have h0 : ∀ k : String, getNum [("activity_score", Val.num 999)] k = 999 ∨
      getNum [("activity_score", Val.num 999)] k = 0 := by
    intro k
    by_cases hk : k = "activity_score"
    · subst hk; left; rfl
    · right
      unfold getNum dget
      rw [if_neg (by simpa using fun hc => hk hc.symm)]
      rfl
  have hc : getNum [("activity_score", Val.num 999)] "total_commits" = 0 := by
    unfold getNum dget
    rw [if_neg (by decide)]
    rfl
  have hp : getNum [("activity_score", Val.num 999)] "prs_created" = 0 := by
    unfold getNum dget
    rw [if_neg (by decide)]
    rfl
  have hrv : getNum [("activity_score", Val.num 999)] "reviews_given" = 0 := by
    unfold getNum dget
    rw [if_neg (by decide)]
    rfl
  have ht : getNum [("activity_score", Val.num 999)] "total_tickets" = 0 := by
    unfold getNum dget
    rw [if_neg (by decide)]
    rfl
  rw [hc, hp, hrv, ht]
  norm_num [roundTo_zero]

theorem dget_calcDerivedOne_frame (r : PyDict) (k : String)
    (h1 : k ≠ "commits_per_ticket") (h2 : k ≠ "activity_score")
    (h3 : k ≠ "ticket_closure_rate") :
    dget (calcDerivedOne r) k = dget r k := by
  unfold calcDerivedOne
  simp only
  rw [dget_dinsert_ne _ _ _ _ h3, dget_dinsert_ne _ _ _ _ h2, dget_dinsert_ne _ _ _ _ h1]

theorem dget_scoreStep_frame (cs : List (String × (ℚ × ℚ × ℚ))) (r : PyDict) (k : String)
    (h1 : k ≠ "complexity_component") (h2 : k ≠ "other_component")
    (h3 : k ≠ "composite_score") :
    dget (dinsert (dinsert (dinsert r "complexity_component"
        (Val.num ((dget cs (uname r)).getD (0, 0, 0)).1)) "other_component"
        (Val.num ((dget cs (uname r)).getD (0, 0, 0)).2.1)) "composite_score"
        (Val.num ((dget cs (uname r)).getD (0, 0, 0)).2.2)) k = dget r k := by
  rw [dget_dinsert_ne _ _ _ _ h3, dget_dinsert_ne _ _ _ _ h2, dget_dinsert_ne _ _ _ _ h1]

theorem dget_addRankFields_frame (i N : ℕ) (r : PyDict) (k : String)
    (h1 : k ≠ "rank") (h2 : k ≠ "percentile") (h3 : k ≠ "rank_label") :
    dget (addRankFields i N r) k = dget r k := by
  unfold addRankFields
  rw [dget_dinsert_ne _ _ _ _ h3, dget_dinsert_ne _ _ _ _ h2, dget_dinsert_ne _ _ _ _ h1]

/-- C9 (amended). Pipeline stages may overwrite exactly the fields they
themselves compute: `calculate_derived_metrics` keeps the record list
aligned index-by-index and preserves every key other than its three derived
keys, and every record produced by `rank_engineers` agrees with some input
record on every key other than the six score/ranking keys. -/
theorem claim_C9_no_mutation_amended :
    (∀ l : List PyDict, (calculate_derived_metrics l).length = l.length) ∧
    (∀ (l : List PyDict) (i : ℕ) (hi : i < l.length)
      (hi2 : i < (calculate_derived_metrics l).length) (k : String),
      k ≠ "commits_per_ticket" → k ≠ "activity_score" → k ≠ "ticket_closure_rate" →
      dget ((calculate_derived_metrics l).get ⟨i, hi2⟩) k = dget (l.get ⟨i, hi⟩) k) ∧
    (∀ (l : List PyDict) (r2 : PyDict), r2 ∈ rank_engineers l →
      ∃ r ∈ l, ∀ k : String, k ≠ "complexity_component" → k ≠ "other_component" →
        k ≠ "composite_score" → k ≠ "rank" → k ≠ "percentile" → k ≠ "rank_label" →
        dget r2 k = dget r k) := by
  refine ⟨?_, ?_, ?_⟩
  · intro l
    simp [calculate_derived_metrics]
  · intro l i hi hi2 k hk1 hk2 hk3
    have : (calculate_derived_metrics l).get ⟨i, hi2⟩ = calcDerivedOne (l.get ⟨i, hi⟩) := by
      simp [calculate_derived_metrics]
    rw [this, dget_calcDerivedOne_frame _ _ hk1 hk2 hk3]
  · intro l r2 hr2
    rcases eq_or_ne l [] with rfl | hne
    · simp [rank_engineers] at hr2
    · rw [rank_engineers_ne_nil_eq l hne] at hr2
      rcases List.mem_map.mp hr2 with ⟨p, hp, hpr⟩
      have hsorted : p.2 ∈ pysortDesc (fun r => getNum r "composite_score") (scoreStep l) :=
        List.snd_mem_of_mem_enum hp
      have hws : p.2 ∈ scoreStep l :=
        (pysortDesc_perm (fun r => getNum r "composite_score") (scoreStep l)).mem_iff.mp hsorted
      rcases List.mem_map.mp hws with ⟨r, hr, hrp⟩
      refine ⟨r, hr, ?_⟩
      intro k hk1 hk2 hk3 hk4 hk5 hk6
      rw [← hpr, dget_addRankFields_frame _ _ _ _ hk4 hk5 hk6, ← hrp]
      exact dget_scoreStep_frame _ r k hk1 hk2 hk3

/-- Witness for the amended C9: `display_name` survives both stages. -/
theorem claim_C9_no_mutation_amended_witness :
    2 < ([[("display_name", Val.str "x")], [("a", Val.num 1)],
        [("b", Val.num 2)]] : List PyDict).length ∧
    2 < (calculate_derived_metrics [[("display_name", Val.str "x")],
        [("a", Val.num 1)], [("b", Val.num 2)]]).length ∧
    dget ((calculate_derived_metrics [[("display_name", Val.str "x")],
        [("a", Val.num 1)], [("b", Val.num 2)]]).get ⟨0, by simp [calculate_derived_metrics]⟩)
      "display_name" =
      dget (([[("display_name", Val.str "x")], [("a", Val.num 1)],
        [("b", Val.num 2)]] : List PyDict).get ⟨0, by simp⟩) "display_name" :=
  ⟨by simp, by simp [calculate_derived_metrics],
   claim_C9_no_mutation_amended.2.1
     [[("display_name", Val.str "x")], [("a", Val.num 1)], [("b", Val.num 2)]]
     0 (by simp) (by simp [calculate_derived_metrics]) "display_name"
     (by decide) (by decide) (by decide)⟩

theorem nodupKeys_foldl_dinsert {α β : Type} (key : β → String) (val : β → α) :
    ∀ (l : List β) (d : List (String × α)), (d.map Prod.fst).Nodup →
      ((l.foldl (fun d r => dinsert d (key r) (val r)) d).map Prod.fst).Nodup := by
  intro l
  induction l with
  | nil => intro d h; exact h
  | cons x xs ih =>
    intro d h
    simp only [List.foldl_cons]
    exact ih _ (nodupKeys_dinsert d (key x) (val x) h)

theorem dget_eq_none_of_not_mem_keys {α : Type} :
    ∀ (d : List (String × α)) (u : String), u ∉ d.map Prod.fst → dget d u = none := by
  intro d
  induction d with
  | nil => intro u _; rfl
  | cons p ps ih =>
    intro u hu
    rw [List.map_cons] at hu
    have hne : p.1 ≠ u := fun hc => hu (by rw [← hc]; exact List.mem_cons_self _ _)
    rw [dget, if_neg hne]
    exact ih u (fun hc => hu (List.mem_cons_of_mem _ hc))

theorem dget_of_mem_nodupKeys {α : Type} :
    ∀ (d : List (String × α)), (d.map Prod.fst).Nodup →
      ∀ (k : String) (v : α), (k, v) ∈ d → dget d k = some v := by
  intro d
  induction d with
  | nil => intro _ k v h; simp at h
  | cons p ps ih =>
    intro hnd k v hm
    rw [List.map_cons] at hnd
    rcases List.nodup_cons.mp hnd with ⟨hp, hps⟩
    rcases List.mem_cons.mp hm with rfl | hm2
    · rw [dget, if_pos rfl]
    · have hk : p.1 ≠ k := by
        intro hc
        refine hp ?_
        rw [hc]
        exact List.mem_map_of_mem Prod.fst hm2
      rw [dget, if_neg hk]
      exact ih hps k v hm2

theorem lastKeyed_fst_nodup {α : Type} :
    ∀ (d : List (String × α)), (d.map Prod.fst).Nodup →
      ∀ u, lastKeyed Prod.fst u d = (dget d u).map (fun v => (u, v)) := by
  intro d
  induction d with
  | nil => intro _ u; rfl
  | cons p ps ih =>
    intro hnd u
    rw [List.map_cons] at hnd
    rcases List.nodup_cons.mp hnd with ⟨hp, hps⟩
    obtain ⟨p1, p2⟩ := p
    simp only [List.map_cons] at hp
    rw [lastKeyed, ih hps u]
    by_cases hu : p1 = u
    · have hnone : dget ps u = none := by
        refine dget_eq_none_of_not_mem_keys ps u ?_
        rw [← hu]
        exact hp
      subst hu
      simp [hnone, dget]
    · cases hd : dget ps u with
      | none => simp [dget, hu, hd]
      | some v => simp [dget, hu, hd]

theorem mem_snd_exists_dget {α : Type} (d : List (String × α))
    (h : (d.map Prod.fst).Nodup) :
    ∀ v ∈ d.map Prod.snd, ∃ u, dget d u = some v := by
  intro v hv
  rcases List.mem_map.mp hv with ⟨p, hp, hpv⟩
  exact ⟨p.1, by rw [dget_of_mem_nodupKeys d h p.1 p.2 hp, hpv]⟩

theorem dget_some_mem_snd {α : Type} (d : List (String × α)) (u : String) (v : α)
    (h : dget d u = some v) : v ∈ d.map Prod.snd :=
  List.mem_map_of_mem Prod.snd (dget_mem d u v h)

theorem dget_cons_head {α : Type} (p : String × α) (ps : List (String × α)) :
    dget (p :: ps) p.1 = some p.2 := by
  rw [dget, if_pos rfl]

theorem pym_snd_eq_of_dget {d1 d2 : List (String × ℚ)}
    (h1 : (d1.map Prod.fst).Nodup) (h2 : (d2.map Prod.fst).Nodup)
    (h : ∀ u, dget d1 u = dget d2 u) :
    pymin (d1.map Prod.snd) = pymin (d2.map Prod.snd) ∧
    pymax (d1.map Prod.snd) = pymax (d2.map Prod.snd) := by
  rcases eq_or_ne d1 [] with rfl | hne1
  · cases d2 with
    | nil => exact ⟨rfl, rfl⟩
    | cons p ps =>
      have := h p.1
      rw [dget_cons_head] at this
      simp [dget] at this
  · rcases eq_or_ne d2 [] with rfl | hne2
    · cases d1 with
      | nil => exact absurd rfl hne1
      | cons p ps =>
        have := h p.1
        rw [dget_cons_head] at this
        simp [dget] at this
    · have hsub1 : ∀ v ∈ d1.map Prod.snd, v ∈ d2.map Prod.snd := by
        intro v hv
        rcases mem_snd_exists_dget d1 h1 v hv with ⟨u, hu⟩
        exact dget_some_mem_snd d2 u v ((h u) ▸ hu)
      have hsub2 : ∀ v ∈ d2.map Prod.snd, v ∈ d1.map Prod.snd := by
        intro v hv
        rcases mem_snd_exists_dget d2 h2 v hv with ⟨u, hu⟩
        exact dget_some_mem_snd d1 u v ((h u).symm ▸ hu)
      have hne1m : d1.map Prod.snd ≠ [] := by
        cases d1 with
        | nil => exact absurd rfl hne1
        | cons p ps => simp
      have hne2m : d2.map Prod.snd ≠ [] := by
        cases d2 with
        | nil => exact absurd rfl hne2
        | cons p ps => simp
      constructor
      · exact le_antisymm
          (pymin_le hne1m _ (hsub2 _ (pymin_mem hne2m)))
          (pymin_le hne2m _ (hsub1 _ (pymin_mem hne1m)))
      · exact le_antisymm
          (pymax_ge hne2m _ (hsub1 _ (pymax_mem hne1m)))
          (pymax_ge hne1m _ (hsub2 _ (pymax_mem hne2m)))

theorem complexityDict_dget_char (l : List PyDict) (u : String) :
    dget (complexityDict l) u =
      (lastKeyed uname u l).map (fun r => getNum r "total_complexity_score") := by
  unfold complexityDict
  rw [dget_foldl_dinsert uname (fun r => getNum r "total_complexity_score") l [] u]
  cases lastKeyed uname u l with
  | none => rfl
  | some r => rfl

theorem complexityDict_nodupKeys (l : List PyDict) :
    ((complexityDict l).map Prod.fst).Nodup :=
  nodupKeys_foldl_dinsert uname (fun r => getNum r "total_complexity_score") l []
    List.nodup_nil

theorem ccc_dget_char (l : List PyDict) (u : String) :
    dget (calculate_complexity_component l) u =
      (dget (complexityDict l) u).map (fun c => normalize_to_100 c
        (pymin ((complexityDict l).map Prod.snd))
        (pymax ((complexityDict l).map Prod.snd))) := by
  unfold calculate_complexity_component
  simp only
  rw [dget_foldl_dinsert Prod.fst
    (fun p => normalize_to_100 p.2 (pymin ((complexityDict l).map Prod.snd))
      (pymax ((complexityDict l).map Prod.snd))) (complexityDict l) [] u]
  rw [lastKeyed_fst_nodup (complexityDict l) (complexityDict_nodupKeys l) u]
  cases dget (complexityDict l) u with
  | none => rfl
  | some c => rfl

theorem ccc_nodupKeys (l : List PyDict) :
    ((calculate_complexity_component l).map Prod.fst).Nodup := by
  unfold calculate_complexity_component
  simp only
  exact nodupKeys_foldl_dinsert Prod.fst _ (complexityDict l) [] List.nodup_nil

theorem oth_dget_char (l : List PyDict) (u : String) :
    dget (calculate_other_component l) u =
      (lastKeyed uname u l).map (otherScoreOf
        (pymin (l.map (fun r => getNum r "commit_frequency")))
        (pymax (l.map (fun r => getNum r "commit_frequency")))
        (pymin (l.map (fun r => getNum r "review_participation")))
        (pymax (l.map (fun r => getNum r "review_participation")))) := by
  unfold calculate_other_component
  simp only
  rw [dget_foldl_dinsert uname (otherScoreOf
    (pymin (l.map (fun r => getNum r "commit_frequency")))
    (pymax (l.map (fun r => getNum r "commit_frequency")))
    (pymin (l.map (fun r => getNum r "review_participation")))
    (pymax (l.map (fun r => getNum r "review_participation")))) l [] u]
  cases lastKeyed uname u l with
  | none => rfl
  | some r => rfl

theorem ccs_dget_char (l : List PyDict) (u : String) :
    dget (calculate_composite_scores l) u =
      (dget (calculate_complexity_component l) u).map (fun c =>
        (c, (dget (calculate_other_component l) u).getD 0,
         roundTo 2 (c * (1/2) +
           (dget (calculate_other_component l) u).getD 0 * (1/2)))) := by
  unfold calculate_composite_scores
  simp only
  rw [dget_foldl_dinsert Prod.fst
    (fun p => (p.2, (dget (calculate_other_component l) p.1).getD 0,
      roundTo 2 (p.2 * (1/2) + (dget (calculate_other_component l) p.1).getD 0 * (1/2))))
    (calculate_complexity_component l) [] u]
  rw [lastKeyed_fst_nodup (calculate_complexity_component l) (ccc_nodupKeys l) u]
  cases dget (calculate_complexity_component l) u with
  | none => rfl
  | some c => rfl

theorem uname_addScores (cs : List (String × (ℚ × ℚ × ℚ))) (r : PyDict) :
    uname (addScores cs r) = uname r := by
  unfold addScores uname
  rw [getStr_dinsert_ne _ _ _ _ (by decide), getStr_dinsert_ne _ _ _ _ (by decide),
    getStr_dinsert_ne _ _ _ _ (by decide)]

theorem uname_addRankFields (i N : ℕ) (r : PyDict) :
    uname (addRankFields i N r) = uname r := by
  unfold addRankFields uname
  rw [getStr_dinsert_ne _ _ _ _ (by decide), getStr_dinsert_ne _ _ _ _ (by decide),
    getStr_dinsert_ne _ _ _ _ (by decide)]

theorem getNum_addScores_cc (cs : List (String × (ℚ × ℚ × ℚ))) (r : PyDict) :
    getNum (addScores cs r) "complexity_component" =
      ((dget cs (uname r)).getD (0, 0, 0)).1 := by
  unfold addScores
  rw [getNum_dinsert_ne _ _ _ _ (by decide), getNum_dinsert_ne _ _ _ _ (by decide),
    getNum_dinsert_self]

theorem getNum_addScores_oc (cs : List (String × (ℚ × ℚ × ℚ))) (r : PyDict) :
    getNum (addScores cs r) "other_component" =
      ((dget cs (uname r)).getD (0, 0, 0)).2.1 := by
  unfold addScores
  rw [getNum_dinsert_ne _ _ _ _ (by decide), getNum_dinsert_self]

theorem getNum_addScores_cs (cs : List (String × (ℚ × ℚ × ℚ))) (r : PyDict) :
    getNum (addScores cs r) "composite_score" =
      ((dget cs (uname r)).getD (0, 0, 0)).2.2 := by
  unfold addScores
  rw [getNum_dinsert_self]

theorem getNum_addRankFields_frame (i N : ℕ) (r : PyDict) (k : String)
    (h1 : k ≠ "rank") (h2 : k ≠ "percentile") (h3 : k ≠ "rank_label") :
    getNum (addRankFields i N r) k = getNum r k := by
  unfold getNum
  rw [dget_addRankFields_frame i N r k h1 h2 h3]

theorem mem_rank_engineers_decomp (l : List PyDict) (r2 : PyDict)
    (h : r2 ∈ rank_engineers l) :
    ∃ (i : ℕ) (r : PyDict), r ∈ l ∧
      r2 = addRankFields i l.length (addScores (calculate_composite_scores l) r) := by
  rcases eq_or_ne l [] with rfl | hne
  · simp [rank_engineers] at h
  · rw [rank_engineers_ne_nil_eq l hne] at h
    rcases List.mem_map.mp h with ⟨p, hp, hpr⟩
    have hsorted : p.2 ∈ pysortDesc (fun r => getNum r "composite_score") (scoreStep l) :=
      List.snd_mem_of_mem_enum hp
    have hws : p.2 ∈ scoreStep l :=
      (pysortDesc_perm (fun r => getNum r "composite_score") (scoreStep l)).mem_iff.mp hsorted
    rcases List.mem_map.mp hws with ⟨r, hr, hrp⟩
    refine ⟨p.1 + 1, r, hr, ?_⟩
    rw [← hpr, ← hrp, pysort_scoreStep_length]

theorem lastKeyed_eq_none_iff {β : Type} (key : β → String) (u : String) :
    ∀ l : List β, lastKeyed key u l = none ↔ ∀ r ∈ l, key r ≠ u := by
  intro l
  induction l with
  | nil => simp [lastKeyed]
  | cons x xs ih =>
    rw [lastKeyed]
    cases hx : lastKeyed key u xs with
    | some y =>
      simp only
      constructor
      · intro hc; simp at hc
      · intro hall
        have := (ih.mpr (fun r hr => hall r (List.mem_cons_of_mem _ hr)))
        rw [this] at hx
        simp at hx
    | none =>
      simp only
      by_cases hk : key x = u
      · rw [if_pos hk]
        constructor
        · intro hc; simp at hc
        · intro hall
          exact absurd hk (hall x (List.mem_cons_self _ _))
      · rw [if_neg hk]
        constructor
        · intro _ r hr
          rcases List.mem_cons.mp hr with rfl | hr2
          · exact hk
          · exact (ih.mp hx) r hr2
        · intro _; rfl

/-- C10. Every record output by `rank_engineers` carries exactly the three
score values stored in the per-username composite-score table, so records
sharing a `github_username` receive identical `complexity_component`,
`other_component` and `composite_score` values, and that table entry is
computed from the metrics of the last record in the input list bearing that
username (dict writes collapse duplicates, last write wins). -/
theorem claim_C10_duplicate_usernames (l : List PyDict) (r2 : PyDict)
    (h : r2 ∈ rank_engineers l) :
    (getNum r2 "complexity_component" =
        ((dget (calculate_composite_scores l) (uname r2)).getD (0, 0, 0)).1 ∧
     getNum r2 "other_component" =
        ((dget (calculate_composite_scores l) (uname r2)).getD (0, 0, 0)).2.1 ∧
     getNum r2 "composite_score" =
        ((dget (calculate_composite_scores l) (uname r2)).getD (0, 0, 0)).2.2) ∧
    (∀ r3 ∈ rank_engineers l, uname r3 = uname r2 →
      getNum r3 "complexity_component" = getNum r2 "complexity_component" ∧
      getNum r3 "other_component" = getNum r2 "other_component" ∧
      getNum r3 "composite_score" = getNum r2 "composite_score") ∧
    (∃ rl : PyDict, lastKeyed uname (uname r2) l = some rl ∧
      dget (calculate_composite_scores l) (uname r2) =
        some (normalize_to_100 (getNum rl "total_complexity_score")
            (pymin ((complexityDict l).map Prod.snd))
            (pymax ((complexityDict l).map Prod.snd)),
          otherScoreOf (pymin (l.map (fun r => getNum r "commit_frequency")))
            (pymax (l.map (fun r => getNum r "commit_frequency")))
            (pymin (l.map (fun r => getNum r "review_participation")))
            (pymax (l.map (fun r => getNum r "review_participation"))) rl,
          roundTo 2 (normalize_to_100 (getNum rl "total_complexity_score")
              (pymin ((complexityDict l).map Prod.snd))
              (pymax ((complexityDict l).map Prod.snd)) * (1/2) +
            otherScoreOf (pymin (l.map (fun r => getNum r "commit_frequency")))
              (pymax (l.map (fun r => getNum r "commit_frequency")))
              (pymin (l.map (fun r => getNum r "review_participation")))
              (pymax (l.map (fun r => getNum r "review_participation"))) rl * (1/2)))) := by
  obtain ⟨i, r, hr, heq⟩ := mem_rank_engineers_decomp l r2 h
  have hu2 : uname r2 = uname r := by
    rw [heq, uname_addRankFields, uname_addScores]
  have hcc : getNum r2 "complexity_component" =
      ((dget (calculate_composite_scores l) (uname r2)).getD (0, 0, 0)).1 := by
    rw [heq, uname_addRankFields, uname_addScores,
      getNum_addRankFields_frame _ _ _ _ (by decide) (by decide) (by decide), getNum_addScores_cc]
  have hoc : getNum r2 "other_component" =
      ((dget (calculate_composite_scores l) (uname r2)).getD (0, 0, 0)).2.1 := by
    rw [heq, uname_addRankFields, uname_addScores,
      getNum_addRankFields_frame _ _ _ _ (by decide) (by decide) (by decide), getNum_addScores_oc]
  have hcs : getNum r2 "composite_score" =
      ((dget (calculate_composite_scores l) (uname r2)).getD (0, 0, 0)).2.2 := by
    rw [heq, uname_addRankFields, uname_addScores,
      getNum_addRankFields_frame _ _ _ _ (by decide) (by decide) (by decide), getNum_addScores_cs]
  refine ⟨⟨hcc, hoc, hcs⟩, ?_, ?_⟩
  · intro r3 h3 hu3
    obtain ⟨j, r', hr', heq'⟩ := mem_rank_engineers_decomp l r3 h3
    have hu3' : uname r3 = uname r' := by
      rw [heq', uname_addRankFields, uname_addScores]
    refine ⟨?_, ?_, ?_⟩
    · rw [heq', getNum_addRankFields_frame _ _ _ _ (by decide) (by decide) (by decide),
        getNum_addScores_cc, ← hu3', hu3, hcc]
    · rw [heq', getNum_addRankFields_frame _ _ _ _ (by decide) (by decide) (by decide),
        getNum_addScores_oc, ← hu3', hu3, hoc]
    · rw [heq', getNum_addRankFields_frame _ _ _ _ (by decide) (by decide) (by decide),
        getNum_addScores_cs, ← hu3', hu3, hcs]
  · have hlast : ∃ rl, lastKeyed uname (uname r2) l = some rl := by
      cases hl : lastKeyed uname (uname r2) l with
      | some rl => exact ⟨rl, rfl⟩
      | none =>
        have hneq := (lastKeyed_eq_none_iff uname (uname r2) l).mp hl r hr
        exact absurd hu2.symm hneq
    obtain ⟨rl, hrl⟩ := hlast
    refine ⟨rl, hrl, ?_⟩
    rw [ccs_dget_char, ccc_dget_char, complexityDict_dget_char, hrl, oth_dget_char, hrl]
    rfl

/-- Witness for C10 at a concrete single-engineer list. -/
theorem claim_C10_duplicate_usernames_witness :
    (rank_engineers [[("github_username", Val.str "a")]]).get
        ⟨0, by rw [rank_engineers_length _ (by simp)]; simp⟩ ∈
      rank_engineers [[("github_username", Val.str "a")]] ∧
    getNum ((rank_engineers [[("github_username", Val.str "a")]]).get
        ⟨0, by rw [rank_engineers_length _ (by simp)]; simp⟩) "composite_score" =
      ((dget (calculate_composite_scores [[("github_username", Val.str "a")]])
          (uname ((rank_engineers [[("github_username", Val.str "a")]]).get
            ⟨0, by rw [rank_engineers_length _ (by simp)]; simp⟩))).getD (0, 0, 0)).2.2 :=
  ⟨List.get_mem _ _ _,
   (claim_C10_duplicate_usernames [[("github_username", Val.str "a")]] _
      (List.get_mem _ _ _)).1.2.2⟩

/-- The metric fields that feed the score computation; the ranker's own
appended fields are not among them. -/
def metricsOf (r : PyDict) : String × ℚ × ℚ × ℚ × ℚ × ℚ × ℚ × ℚ :=
  (uname r,
   getNum r "total_complexity_score",
   getNum r "commit_frequency",
   getNum r "review_participation",
   getNum r "pr_merge_rate",
   getNum (getDict (getDict r "ai_analysis") "code_quality") "quality_score",
   getNum (getDict (getDict r "ai_analysis") "review_quality") "thoroughness_score",
   getNum (getDict (getDict r "ai_analysis") "review_quality") "helpfulness_score")

theorem getNum_addScores_frame (cs : List (String × (ℚ × ℚ × ℚ))) (r : PyDict)
    (k : String) (h1 : k ≠ "complexity_component") (h2 : k ≠ "other_component")
    (h3 : k ≠ "composite_score") : getNum (addScores cs r) k = getNum r k := by
  unfold getNum addScores
  rw [dget_scoreStep_frame cs r k h1 h2 h3]

theorem getDict_addScores_frame (cs : List (String × (ℚ × ℚ × ℚ))) (r : PyDict)
    (k : String) (h1 : k ≠ "complexity_component") (h2 : k ≠ "other_component")
    (h3 : k ≠ "composite_score") : getDict (addScores cs r) k = getDict r k := by
  unfold getDict addScores
  rw [dget_scoreStep_frame cs r k h1 h2 h3]

theorem getDict_addRankFields_frame (i N : ℕ) (r : PyDict) (k : String)
    (h1 : k ≠ "rank") (h2 : k ≠ "percentile") (h3 : k ≠ "rank_label") :
    getDict (addRankFields i N r) k = getDict r k := by
  unfold getDict
  rw [dget_addRankFields_frame i N r k h1 h2 h3]

theorem metricsOf_addScores (cs : List (String × (ℚ × ℚ × ℚ))) (r : PyDict) :
    metricsOf (addScores cs r) = metricsOf r := by
  have hai : getDict (addScores cs r) "ai_analysis" = getDict r "ai_analysis" :=
    getDict_addScores_frame cs r _ (by decide) (by decide) (by decide)
  unfold metricsOf
  rw [uname_addScores, hai,
    getNum_addScores_frame cs r "total_complexity_score" (by decide) (by decide) (by decide),
    getNum_addScores_frame cs r "commit_frequency" (by decide) (by decide) (by decide),
    getNum_addScores_frame cs r "review_participation" (by decide) (by decide) (by decide),
    getNum_addScores_frame cs r "pr_merge_rate" (by decide) (by decide) (by decide)]

theorem metricsOf_addRankFields (i N : ℕ) (r : PyDict) :
    metricsOf (addRankFields i N r) = metricsOf r := by
  have hai : getDict (addRankFields i N r) "ai_analysis" = getDict r "ai_analysis" :=
    getDict_addRankFields_frame i N r _ (by decide) (by decide) (by decide)
  unfold metricsOf
  rw [uname_addRankFields, hai,
    getNum_addRankFields_frame i N r "total_complexity_score" (by decide) (by decide) (by decide),
    getNum_addRankFields_frame i N r "commit_frequency" (by decide) (by decide) (by decide),
    getNum_addRankFields_frame i N r "review_participation" (by decide) (by decide) (by decide),
    getNum_addRankFields_frame i N r "pr_merge_rate" (by decide) (by decide) (by decide)]

theorem otherScoreOf_congr (a b c d : ℚ) {r1 r2 : PyDict}
    (h : metricsOf r1 = metricsOf r2) :
    otherScoreOf a b c d r1 = otherScoreOf a b c d r2 := by
  have h3 : getNum r1 "commit_frequency" = getNum r2 "commit_frequency" :=
    congrArg (fun t => t.2.2.1) h
  have h4 : getNum r1 "review_participation" = getNum r2 "review_participation" :=
    congrArg (fun t => t.2.2.2.1) h
  have h5 : getNum r1 "pr_merge_rate" = getNum r2 "pr_merge_rate" :=
    congrArg (fun t => t.2.2.2.2.1) h
  have h6 : getNum (getDict (getDict r1 "ai_analysis") "code_quality") "quality_score" =
      getNum (getDict (getDict r2 "ai_analysis") "code_quality") "quality_score" :=
    congrArg (fun t => t.2.2.2.2.2.1) h
  have h7 : getNum (getDict (getDict r1 "ai_analysis") "review_quality")
      "thoroughness_score" =
      getNum (getDict (getDict r2 "ai_analysis") "review_quality") "thoroughness_score" :=
    congrArg (fun t => t.2.2.2.2.2.2.1) h
  have h8 : getNum (getDict (getDict r1 "ai_analysis") "review_quality")
      "helpfulness_score" =
      getNum (getDict (getDict r2 "ai_analysis") "review_quality") "helpfulness_score" :=
    congrArg (fun t => t.2.2.2.2.2.2.2) h
  simp only [otherScoreOf, h3, h4, h5, h6, h7, h8]

theorem map_getNum_enum_wrap (N : ℕ) (k : String) (h1 : k ≠ "rank")
    (h2 : k ≠ "percentile") (h3 : k ≠ "rank_label") :
    ∀ (l : List PyDict) (n : ℕ),
      ((l.enumFrom n).map (fun p => addRankFields (p.1 + 1) N p.2)).map
          (fun r => getNum r k) =
        l.map (fun r => getNum r k) := by
  intro l
  induction l with
  | nil => intro n; rfl
  | cons x xs ih =>
    intro n
    simp only [List.enumFrom, List.map_cons]
    rw [ih (n + 1), getNum_addRankFields_frame _ _ _ _ h1 h2 h3]

theorem filter_metrics_enum_wrap (N : ℕ) (u : String) :
    ∀ (l : List PyDict) (n : ℕ),
      (((l.enumFrom n).map (fun p => addRankFields (p.1 + 1) N p.2)).filter
          (fun r => uname r == u)).map metricsOf =
        (l.filter (fun r => uname r == u)).map metricsOf := by
  intro l
  induction l with
  | nil => intro n; rfl
  | cons x xs ih =>
    intro n
    simp only [List.enumFrom, List.map_cons, List.filter_cons]
    rw [uname_addRankFields]
    by_cases hu : (uname x == u) = true
    · rw [if_pos hu, if_pos hu]
      simp only [List.map_cons]
      rw [ih (n + 1), metricsOf_addRankFields]
    · rw [if_neg hu, if_neg hu]
      exact ih (n + 1)

theorem lastKeyed_eq_getLast_filter {β : Type} (key : β → String) (u : String) :
    ∀ l : List β, lastKeyed key u l = (l.filter (fun r => key r == u)).getLast? := by
  intro l
  induction l with
  | nil => rfl
  | cons x xs ih =>
    rw [lastKeyed, ih, List.filter_cons]
    by_cases hk : (key x == u) = true
    · rw [if_pos hk]
      cases hfl : xs.filter (fun r => key r == u) with
      | nil =>
        have hke : key x = u := by simpa using hk
        simp [List.getLast?, hke]
      | cons z zs =>
        rw [List.getLast?_cons_cons]
        cases hy : (z :: zs).getLast? with
        | none => simp at hy
        | some y => rfl
    · rw [if_neg hk]
      have hku : key x ≠ u := by simpa using hk
      cases hfx : (xs.filter (fun r => key r == u)).getLast? with
      | some y => rfl
      | none => simp [hku]

theorem score_const_on_uname (l : List PyDict) (u : String) :
    ∀ x ∈ scoreStep l, (uname x == u) = true →
      getNum x "composite_score" =
        ((dget (calculate_composite_scores l) u).getD (0, 0, 0)).2.2 := by
  intro x hx hbeq
  unfold scoreStep at hx
  rcases List.mem_map.mp hx with ⟨r, hr, hrx⟩
  have hur : uname r = u := by
    have : uname x = u := by simpa using hbeq
    rw [← this, ← hrx, uname_addScores]
  rw [← hrx, getNum_addScores_cs, hur]

theorem sorted_filter_uname (l : List PyDict) (u : String) :
    (pysortDesc (fun r => getNum r "composite_score") (scoreStep l)).filter
        (fun r => uname r == u) =
      (scoreStep l).filter (fun r => uname r == u) := by
  have hsplit : ∀ x ∈ scoreStep l, (uname x == u) =
      ((uname x == u) && decide (getNum x "composite_score" =
        ((dget (calculate_composite_scores l) u).getD (0, 0, 0)).2.2)) := by
    intro x hx
    cases hb : (uname x == u) with
    | false => simp
    | true =>
      simp only [Bool.true_and]
      rw [score_const_on_uname l u x hx hb]
      simp
  have hws : (scoreStep l).filter (fun r => uname r == u) =
      ((scoreStep l).filter (fun y => decide (getNum y "composite_score" =
        ((dget (calculate_composite_scores l) u).getD (0, 0, 0)).2.2))).filter
        (fun r => uname r == u) := by
    rw [List.filter_filter]
    exact List.filter_congr hsplit
  have hsorted : (pysortDesc (fun r => getNum r "composite_score") (scoreStep l)).filter
      (fun r => uname r == u) =
      ((pysortDesc (fun r => getNum r "composite_score") (scoreStep l)).filter
        (fun y => decide (getNum y "composite_score" =
          ((dget (calculate_composite_scores l) u).getD (0, 0, 0)).2.2))).filter
        (fun r => uname r == u) := by
    rw [List.filter_filter]
    refine List.filter_congr ?_
    intro x hx
    exact hsplit x ((pysortDesc_perm (fun r => getNum r "composite_score")
      (scoreStep l)).mem_iff.mp hx)
  rw [hsorted, pysortDesc_filter (fun r => getNum r "composite_score") _ (scoreStep l),
    ← hws]

theorem uname_filter_scoreStep (l : List PyDict) (u : String) :
    ((scoreStep l).filter (fun r => uname r == u)).map metricsOf =
      (l.filter (fun r => uname r == u)).map metricsOf := by
  unfold scoreStep
  rw [List.filter_map, List.map_map]
  have hfeq : l.filter ((fun r => uname r == u) ∘
      addScores (calculate_composite_scores l)) = l.filter (fun r => uname r == u) := by
    refine List.filter_congr ?_
    intro x hx
    simp [Function.comp, uname_addScores]
  rw [hfeq]
  refine List.map_congr_left ?_
  intro x hx
  simp [Function.comp, metricsOf_addScores]

theorem rank_filter_metrics (l : List PyDict) (hne : l ≠ []) (u : String) :
    ((rank_engineers l).filter (fun r => uname r == u)).map metricsOf =
      (l.filter (fun r => uname r == u)).map metricsOf := by
  rw [rank_engineers_ne_nil_eq l hne]
  have henum : (pysortDesc (fun r => getNum r "composite_score") (scoreStep l)).enum =
      (pysortDesc (fun r => getNum r "composite_score") (scoreStep l)).enumFrom 0 := rfl
  rw [henum, filter_metrics_enum_wrap _ u _ 0, sorted_filter_uname l u,
    uname_filter_scoreStep l u]

theorem rank_lastKeyed_metrics (l : List PyDict) (hne : l ≠ []) (u : String) :
    (lastKeyed uname u (rank_engineers l)).map metricsOf =
      (lastKeyed uname u l).map metricsOf := by
  rw [lastKeyed_eq_getLast_filter uname u (rank_engineers l),
    lastKeyed_eq_getLast_filter uname u l,
    ← List.getLast?_map, ← List.getLast?_map, rank_filter_metrics l hne u]

theorem rank_map_getNum_perm (l : List PyDict) (hne : l ≠ []) (k : String)
    (h1 : k ≠ "rank") (h2 : k ≠ "percentile") (h3 : k ≠ "rank_label")
    (h4 : k ≠ "complexity_component") (h5 : k ≠ "other_component")
    (h6 : k ≠ "composite_score") :
    ((rank_engineers l).map (fun r => getNum r k)).Perm (l.map (fun r => getNum r k)) := by
  rw [rank_engineers_ne_nil_eq l hne]
  have henum : (pysortDesc (fun r => getNum r "composite_score") (scoreStep l)).enum =
      (pysortDesc (fun r => getNum r "composite_score") (scoreStep l)).enumFrom 0 := rfl
  rw [henum, map_getNum_enum_wrap _ k h1 h2 h3 _ 0]
  have hperm := (pysortDesc_perm (fun r => getNum r "composite_score")
    (scoreStep l)).map (fun r => getNum r k)
  refine hperm.trans ?_
  have hws : (scoreStep l).map (fun r => getNum r k) = l.map (fun r => getNum r k) := by
    unfold scoreStep
    rw [List.map_map]
    refine List.map_congr_left ?_
    intro x hx
    simp only [Function.comp]
    exact getNum_addScores_frame _ x k h4 h5 h6
  rw [hws]

theorem option_map_congr_metrics {α : Type} (o1 o2 : Option PyDict) (f : PyDict → α)
    (hf : ∀ r1 r2 : PyDict, metricsOf r1 = metricsOf r2 → f r1 = f r2)
    (h : o1.map metricsOf = o2.map metricsOf) : o1.map f = o2.map f := by
  cases o1 with
  | none =>
    cases o2 with
    | none => rfl
    | some r => simp at h
  | some r1 =>
    cases o2 with
    | none => simp at h
    | some r2 =>
      have h2 : metricsOf r1 = metricsOf r2 := by
        have h3 := congrArg (fun o => o.getD (metricsOf r1)) h
        simpa using h3
      show some (f r1) = some (f r2)
      rw [hf r1 r2 h2]

theorem rank_complexityDict_dget (l : List PyDict) (hne : l ≠ []) (u : String) :
    dget (complexityDict (rank_engineers l)) u = dget (complexityDict l) u := by
  rw [complexityDict_dget_char, complexityDict_dget_char]
  refine option_map_congr_metrics _ _ _ ?_ (rank_lastKeyed_metrics l hne u)
  intro r1 r2 h
  exact congrArg (fun t => t.2.1) h

theorem rank_complexity_values (l : List PyDict) (hne : l ≠ []) :
    pymin ((complexityDict (rank_engineers l)).map Prod.snd) =
      pymin ((complexityDict l).map Prod.snd) ∧
    pymax ((complexityDict (rank_engineers l)).map Prod.snd) =
      pymax ((complexityDict l).map Prod.snd) :=
  pym_snd_eq_of_dget (complexityDict_nodupKeys _) (complexityDict_nodupKeys _)
    (rank_complexityDict_dget l hne)

theorem rank_ccc_dget (l : List PyDict) (hne : l ≠ []) (u : String) :
    dget (calculate_complexity_component (rank_engineers l)) u =
      dget (calculate_complexity_component l) u := by
  rw [ccc_dget_char, ccc_dget_char, rank_complexityDict_dget l hne u,
    (rank_complexity_values l hne).1, (rank_complexity_values l hne).2]

theorem rank_oth_dget (l : List PyDict) (hne : l ≠ []) (u : String) :
    dget (calculate_other_component (rank_engineers l)) u =
      dget (calculate_other_component l) u := by
  rw [oth_dget_char, oth_dget_char,
    pymin_perm (rank_map_getNum_perm l hne "commit_frequency" (by decide) (by decide)
      (by decide) (by decide) (by decide) (by decide)),
    pymax_perm (rank_map_getNum_perm l hne "commit_frequency" (by decide) (by decide)
      (by decide) (by decide) (by decide) (by decide)),
    pymin_perm (rank_map_getNum_perm l hne "review_participation" (by decide) (by decide)
      (by decide) (by decide) (by decide) (by decide)),
    pymax_perm (rank_map_getNum_perm l hne "review_participation" (by decide) (by decide)
      (by decide) (by decide) (by decide) (by decide))]
  refine option_map_congr_metrics _ _ _ ?_ (rank_lastKeyed_metrics l hne u)
  intro r1 r2 h
  exact otherScoreOf_congr _ _ _ _ h

theorem rank_ccs_dget (l : List PyDict) (u : String) :
    dget (calculate_composite_scores (rank_engineers l)) u =
      dget (calculate_composite_scores l) u := by
  rcases eq_or_ne l [] with rfl | hne
  · rfl
  · rw [ccs_dget_char, ccs_dget_char, rank_ccc_dget l hne u, rank_oth_dget l hne u]

/-- C8. Re-running the ranker recomputes identical scores: the per-username
composite-score table of `rank_engineers l` equals that of `l` (the score
computation reads only the metric fields, which the ranker's appended
rank/percentile/label/score fields never touch), and every record of
`rank_engineers (rank_engineers l)` carries the same three score values the
first application computed for its username. -/
theorem claim_C8_rank_idempotent :
    (∀ (l : List PyDict) (u : String),
      dget (calculate_composite_scores (rank_engineers l)) u =
        dget (calculate_composite_scores l) u) ∧
    (∀ (l : List PyDict) (r2 : PyDict),
      r2 ∈ rank_engineers (rank_engineers l) →
      getNum r2 "complexity_component" =
        ((dget (calculate_composite_scores l) (uname r2)).getD (0, 0, 0)).1 ∧
      getNum r2 "other_component" =
        ((dget (calculate_composite_scores l) (uname r2)).getD (0, 0, 0)).2.1 ∧
      getNum r2 "composite_score" =
        ((dget (calculate_composite_scores l) (uname r2)).getD (0, 0, 0)).2.2) := by
  constructor
  · exact rank_ccs_dget
  · intro l r2 h
    obtain ⟨i, r, hr, heq⟩ := mem_rank_engineers_decomp (rank_engineers l) r2 h
    refine ⟨?_, ?_, ?_⟩
    · rw [heq, uname_addRankFields, uname_addScores,
        getNum_addRankFields_frame _ _ _ _ (by decide) (by decide) (by decide),
        getNum_addScores_cc, rank_ccs_dget l (uname r)]
    · rw [heq, uname_addRankFields, uname_addScores,
        getNum_addRankFields_frame _ _ _ _ (by decide) (by decide) (by decide),
        getNum_addScores_oc, rank_ccs_dget l (uname r)]
    · rw [heq, uname_addRankFields, uname_addScores,
        getNum_addRankFields_frame _ _ _ _ (by decide) (by decide) (by decide),
        getNum_addScores_cs, rank_ccs_dget l (uname r)]

/-- Witness for C8 at a concrete single-engineer list. -/
theorem claim_C8_rank_idempotent_witness :
    (rank_engineers (rank_engineers [[("github_username", Val.str "a")]])).get
        ⟨0, by
          have h1 : (rank_engineers [[("github_username", Val.str "a")]]).length = 1 :=
            rank_engineers_length _ (by simp)
          have h2 : rank_engineers [[("github_username", Val.str "a")]] ≠ [] := by
            intro hc
            rw [hc] at h1
            simp at h1
          rw [rank_engineers_length _ h2, h1]
          norm_num⟩ ∈
      rank_engineers (rank_engineers [[("github_username", Val.str "a")]]) ∧
    getNum ((rank_engineers (rank_engineers [[("github_username", Val.str "a")]])).get
        ⟨0, by
          have h1 : (rank_engineers [[("github_username", Val.str "a")]]).length = 1 :=
            rank_engineers_length _ (by simp)
          have h2 : rank_engineers [[("github_username", Val.str "a")]] ≠ [] := by
            intro hc
            rw [hc] at h1
            simp at h1
          rw [rank_engineers_length _ h2, h1]
          norm_num⟩) "composite_score" =
      ((dget (calculate_composite_scores [[("github_username", Val.str "a")]])
          (uname ((rank_engineers (rank_engineers [[("github_username", Val.str "a")]])).get
            ⟨0, by
              have h1 : (rank_engineers [[("github_username", Val.str "a")]]).length = 1 :=
                rank_engineers_length _ (by simp)
              have h2 : rank_engineers [[("github_username", Val.str "a")]] ≠ [] := by
                intro hc
                rw [hc] at h1
                simp at h1
              rw [rank_engineers_length _ h2, h1]
              norm_num⟩))).getD (0, 0, 0)).2.2 :=
  ⟨List.get_mem _ _ _,
   (claim_C8_rank_idempotent.2 [[("github_username", Val.str "a")]] _
      (List.get_mem _ _ _)).2.2⟩
